import Mathlib

/-!
# Verification of the domain-radar-bot extraction pipeline

A shallow embedding, in Lean 4, of the pure heuristic core of
`src/bot/main.py`: text normalisation, company-name extraction,
domain extraction, relevance scoring, external-id generation and the
record-assembly loop of `process`.

Modelling conventions:

* Python strings are Lean `String`s, manipulated through their `List Char`
  data.  Character classes of the Python regexes (`\s`, `\w`, `[A-Z]`,
  `[A-Za-z0-9&.-]`, `[a-zA-Z0-9-]`) are embedded as boolean predicates on
  `Char`, using the ASCII meaning (the titles the heuristics target are
  ASCII news headlines; the embedding applies one consistent character
  model on both the normalisation side and the matching side).
* The regular-expression fragments of the source are embedded as
  specialised backtracking matchers: every quantifier produces its list
  of candidate splits in the preference order of the Python `re` engine
  (greedy: longest first; alternations: left to right), and the first
  candidate whose continuation succeeds is taken, which is exactly the
  leftmost/backtracking semantics of `re.search`/`re.findall`.
* Recursion that is not structural uses an explicit fuel argument, always
  called with fuel at least the length of the scanned list, so that every
  definition is executable by the kernel.
* `hashlib.md5`, `urllib.parse.urlparse` and `html.unescape` are Python
  standard-library collaborators; `md5` and the netloc extraction of
  `urlparse` are embedded in full, `html.unescape` is modelled on the
  core XML entity table (the HTML5 entity list is an external data file
  of the Python stdlib and no claim depends on it).
-/

/-! ## Character classes (ASCII model of the Python regex classes) -/

/-- Python regex `\s` (ASCII): space, tab, newline, carriage return,
vertical tab, form feed. -/
def pySpace (c : Char) : Bool :=
  c = ' ' || c = '\t' || c = '\n' || c = '\r' || c = '\x0b' || c = '\x0c'

/-- Python regex `\w` (ASCII): letters, digits, underscore.  Used for the
`\b` word-boundary assertions. -/
def isWordCh (c : Char) : Bool :=
  c.isAlphanum || c = '_'

/-- The character class `[A-Za-z0-9&.-]` of the company-name word pattern. -/
def wCls (c : Char) : Bool :=
  c.isAlphanum || c = '&' || c = '.' || c = '-'

/-- The character class `[a-zA-Z0-9-]` of the domain-label pattern. -/
def dCls (c : Char) : Bool :=
  c.isAlphanum || c = '-'

/-- ASCII lowercasing of one character, the per-character model of
Python `str.lower()`. -/
def lowerCh (c : Char) : Char :=
  if c.isUpper then Char.ofNat (c.toNat + 32) else c

/-- Model of Python `str.lower()`. -/
def pyLower (s : String) : String :=
  ⟨s.data.map lowerCh⟩

/-! ## Whitespace splitting, joining and stripping -/

/-- Accumulator worker for `splitWs`; `acc` holds the reversed current word. -/
def splitWsAux : List Char → List Char → List (List Char)
  | acc, [] => if acc = [] then [] else [acc.reverse]
  | acc, c :: cs =>
    if pySpace c then
      if acc = [] then splitWsAux [] cs else acc.reverse :: splitWsAux [] cs
    else splitWsAux (c :: acc) cs

/-- Model of Python `str.split()` with no argument: split on runs of
whitespace, dropping empty pieces. -/
def splitWs (cs : List Char) : List (List Char) :=
  splitWsAux [] cs

/-- Join a list of words with single ASCII spaces, the model of
`" ".join(...)`. -/
def joinSp : List (List Char) → List Char
  | [] => []
  | [w] => w
  | w :: ws => w ++ ' ' :: joinSp ws

/-- Model of Python `str.strip()`: drop leading and trailing whitespace. -/
def pyStripL (cs : List Char) : List Char :=
  ((cs.dropWhile pySpace).reverse.dropWhile pySpace).reverse

/-- Collapse every maximal run of whitespace to a single space; `inRun`
records whether the previous character belonged to a whitespace run.
This is the substitution `re.sub(r"\s+", " ", s)`. -/
def collapseAux : Bool → List Char → List Char
  | _, [] => []
  | inRun, c :: cs =>
    if pySpace c then
      if inRun then collapseAux true cs else ' ' :: collapseAux true cs
    else c :: collapseAux false cs

/-- `normalize_spaces` from the source:
`re.sub(r"\s+", " ", (s or "")).strip()`. -/
def normalize_spaces (s : String) : String :=
  ⟨pyStripL (collapseAux false s.data)⟩

/-! ## The fixed deny-lists of the name filter -/

/-- Geography / macro words that are never company names (`GEO`). -/
def GEO : List String :=
  ["UK","US","EU","UAE","USA","Europe","European","London","Paris","Berlin",
   "Germany","German","France","French","Spain","Spanish","Italy","Italian",
   "China","India","World","Global"]

/-- Headline words that are never company names (`NOISE`). -/
def NOISE : List String :=
  ["AI","This","That","These","Those","Ask","Are","How","Why","What","When",
   "Where","Who","Ex","Breaking","Report","Opinion","Analysis","Startup",
   "Startups","VC","CEO","IPO"]

/-- Lower-case boilerplate stopwords (`BAD_LOWER`). -/
def BAD_LOWER : List String :=
  ["startup","startups","company","companies","firm","fund","funding","raises",
   "raise","raised","round","seed","series","pre-seed","deal","launch",
   "launches","announces","announce","says","said","adds","added","report",
   "interview","podcast","newsletter","today","yesterday","tomorrow"]

/-- Corporate suffixes stripped from candidate names (`ORG_SUFFIX`). -/
def ORG_SUFFIX : List String :=
  ["Inc","Ltd","PLC","LLC","GmbH","SAS","Srl","Srls","BV","AB","Oy","SA","AG","NV"]

/-- The `ACTION_VERBS` alternation, in the order of the source string. -/
def ACTION_VERBS : List String :=
  ["raises","raised","acquires","acquired","buys","bought","launches",
   "launched","announces","announced","secures","secured","lands","landed",
   "partners","partnered","backs","backed","files","filed","unveils",
   "unveiled","introduces","introduced"]

/-- Model of Python `str.isupper()` (ASCII): at least one cased character
and no lower-case cased character. -/
def pyIsUpper (cs : List Char) : Bool :=
  cs.any (·.isAlpha) && cs.all (fun c => !c.isAlpha || c.isUpper)

/-- `token_ok` from the source, checks in source order: non-empty, strip,
length at least 3, no digits, not a short all-caps acronym, not in `GEO`
or `NOISE`, lower-case form not in `BAD_LOWER`. -/
def token_ok (w : String) : Bool :=
  if w = "" then false
  else
    let w : String := ⟨pyStripL w.data⟩
    if w.length < 3 then false
    else if w.data.any (·.isDigit) then false
    else if pyIsUpper w.data && w.length ≤ 4 then false
    else if GEO.contains w || NOISE.contains w then false
    else if BAD_LOWER.contains (pyLower w) then false
    else true

/-- `strip_org_suffix` from the source: drop tokens that are corporate
suffixes, re-join with single spaces, strip. -/
def strip_org_suffix (name : String) : String :=
  let parts := (splitWs name.data).map (fun l => (⟨l⟩ : String))
  let kept := parts.filter (fun p => !ORG_SUFFIX.contains p)
  ⟨pyStripL (joinSp (kept.map String.data))⟩

/-! ## The capitalized-sequence matcher

The group `[A-Z][A-Za-z0-9&.-]+(?:\s[A-Z][A-Za-z0-9&.-]+){0,2}` of both
strong patterns and of the fallback `re.findall` scan.  Each matcher
returns the list of `(matched-prefix, remaining-suffix)` splits in the
backtracking preference order of the Python engine: the greedy `+` offers
its longest run first, the greedy `{0,2}` offers two repetitions before
one before none. -/

/-- Candidate splits of one word `[A-Z][A-Za-z0-9&.-]+`, longest first.
The word needs an upper-case head and at least one further class
character. -/
def wOpts : List Char → List (List Char × List Char)
  | [] => []
  | c :: cs =>
    if c.isUpper then
      (List.range (cs.takeWhile wCls).length).reverse.map
        (fun k => (c :: cs.take (k + 1), cs.drop (k + 1)))
    else []

/-- Candidate splits of one repetition `\s[A-Z][A-Za-z0-9&.-]+`. -/
def repOpts : List Char → List (List Char × List Char)
  | [] => []
  | c :: cs =>
    if pySpace c then (wOpts cs).map (fun p => (c :: p.1, p.2)) else []

/-- Candidate splits of the whole group, in backtracking preference
order: two repetitions first, then one, then none, with each inner `+`
longest first. -/
def groupOpts (cs : List Char) : List (List Char × List Char) :=
  (wOpts cs).flatMap (fun p1 =>
    ((repOpts p1.2).flatMap (fun p2 =>
      ((repOpts p2.2).map (fun p3 => (p1.1 ++ p2.1 ++ p3.1, p3.2))) ++
        [(p1.1 ++ p2.1, p2.2)])) ++ [p1])

/-- The word-boundary assertion `\b` placed after a character `last`,
with `rest` the remaining input: exactly one side is a word character. -/
def bAfter (last : Char) (rest : List Char) : Bool :=
  match rest with
  | [] => isWordCh last
  | c :: _ => isWordCh last != isWordCh c

/-- Last character of a list, with a default. -/
def lastCh (l : List Char) (dflt : Char) : Char :=
  l.getLastD dflt

/-- The first strong pattern `^(group)'s\b`, anchored at the start:
the first group split followed by an apostrophe, `s`, and a word
boundary wins. -/
def strong1 (t : List Char) : Option (List Char) :=
  (groupOpts t).findSome? (fun p =>
    match p.2 with
    | q :: s :: rest =>
      if q = '\x27' && s = 's' && bAfter 's' rest then some p.1 else none
    | _ => none)

/-- The second strong pattern `^(group)\s+(ACTION_VERBS)\b`, anchored at
the start: after the group, a greedy run of whitespace (longest first),
then the verb alternation in source order, case-sensitively, then a word
boundary. -/
def strong2 (t : List Char) : Option (List Char) :=
  (groupOpts t).findSome? (fun p =>
    let sp := (p.2.takeWhile pySpace).length
    ((List.range sp).reverse.map (· + 1)).findSome? (fun j =>
      let r := p.2.drop j
      ACTION_VERBS.findSome? (fun v =>
        if r.take v.length == v.data &&
            bAfter (lastCh v.data ' ') (r.drop v.length)
        then some p.1 else none)))

/-! ## The fallback `re.findall` scan and candidate scoring -/

/-- The scan of
`re.findall(r"\b([A-Z][A-Za-z0-9&.-]+(?:\s[A-Z][A-Za-z0-9&.-]+){0,2})\b", t)`:
try a match at every position from left to right; a match needs the word
boundary before its first character and, for the first group split in
preference order, the word boundary after its last character; after a
match the scan resumes at the match end.  `prev` is the character before
the current position (`none` at the start of the string); the fuel is at
least the length of `cs`, and every step consumes at least one
character. -/
def nameScan : Nat → Option Char → List Char → List (List Char)
  | 0, _, _ => []
  | _ + 1, _, [] => []
  | fuel + 1, prev, c :: cs =>
    if (match prev with | none => false | some p => isWordCh p) != isWordCh c then
      match (groupOpts (c :: cs)).findSome?
          (fun p => if bAfter (lastCh p.1 ' ') p.2 then some p else none) with
      | some p => p.1 :: nameScan fuel (some (lastCh p.1 ' ')) p.2
      | none => nameScan fuel (some c) cs
    else nameScan fuel (some c) cs

/-- The raw capitalized sequences found in the title. -/
def fallbackSeqs (t : List Char) : List String :=
  (nameScan (t.length + 1) none t).map (fun l => (⟨l⟩ : String))

/-- The bonus check of the fallback scorer:
`re.match(rf"^({ACTION_VERBS})\b", t[len(s):].lstrip(), re.IGNORECASE)`.
Note the source uses the candidate's length as an offset into the title,
wherever the candidate actually occurred. -/
def afterVerb (t : List Char) (s : String) : Bool :=
  let after := (t.drop s.length).dropWhile pySpace
  ACTION_VERBS.any (fun v =>
    (after.take v.length).map lowerCh == v.data &&
      bAfter (lastCh v.data ' ') (after.drop v.length))

/-- The heuristic score of one fallback candidate, summed in source
order: +6 for a multi-word candidate, +3 for character length at least 6,
+8 when the title continues with an action verb, -20 when the candidate
is a geography word. -/
def candScore (t : List Char) (s : String) : Int :=
  let parts := splitWs s.data
  (0 : Int)
    + (if 2 ≤ parts.length then 6 else 0)
    + (if 6 ≤ s.length then 3 else 0)
    + (if afterVerb t s then 8 else 0)
    - (if GEO.contains s then 20 else 0)

/-- The guarded scoring step of the fallback loop: drop candidates with
no tokens or with a token rejected by `token_ok`, otherwise pair the
candidate with its score. -/
def scoredCand (t : List Char) (s : String) : Option (Int × String) :=
  let parts := (splitWs s.data).map (fun l => (⟨l⟩ : String))
  if parts = [] then none
  else if !parts.all token_ok then none
  else some (candScore t s, s)

/-- The fallback branch of `extract_company_name`: build the candidate
sequences, strip suffixes, score the first 20, pick the best (Python's
stable `sort(reverse=True)` followed by `[0]` keeps the earliest
candidate among those of maximal score), and apply the final
geography/noise guard. -/
def fallbackName (t : List Char) : Option String :=
  let seqs := ((fallbackSeqs t).map
      (fun s => strip_org_suffix (normalize_spaces s))).filter (· ≠ "")
  if seqs = [] then none
  else
    let scored := (seqs.take 20).filterMap (scoredCand t)
    match scored.insertionSort (fun a b => b.1 ≤ a.1) with
    | [] => none
    | best :: _ =>
      if GEO.contains best.2 || NOISE.contains best.2 then none else some best.2

/-- The body of the strong-pattern loop once a pattern matched with group
`g`: clean the candidate and test the token filter; `some r` means the
function returns `r`, `none` means the loop falls through to the next
pattern. -/
def strongStep (g : List Char) : Option (Option String) :=
  let cand := strip_org_suffix (normalize_spaces ⟨g⟩)
  if cand ≠ "" && ((splitWs cand.data).map (fun l => (⟨l⟩ : String))).all token_ok
  then some (if GEO.contains cand || NOISE.contains cand then none else some cand)
  else none

/-- `extract_company_name` from the source: normalise the title (after
mapping the Unicode right single quote to an ASCII apostrophe), try the
two strong patterns in order — a pattern that matches but whose candidate
fails the token filter falls through — and otherwise run the fallback
scan. -/
def extractFromNorm (t : List Char) : Option String :=
  match (match strong1 t with | some g => strongStep g | none => none) with
  | some r => r
  | none =>
    match (match strong2 t with | some g => strongStep g | none => none) with
    | some r => r
    | none => fallbackName t

def extract_company_name (title : String) : Option String :=
  extractFromNorm (normalize_spaces ⟨title.data.map
    (fun c => if c = '’' then '\x27' else c)⟩).data

/-! ## Domain extraction (`DOMAIN_RE`, `get_domain_from_url`, `extract_domains`) -/

/-- The suffix alternation of `DOMAIN_RE`, in source order. -/
def TLD_ALTS : List String :=
  ["com","io","ai","co","net","org","app","dev","info","eu","it","fr","de",
   "es","uk","me","xyz"]

/-- One repetition `[a-zA-Z0-9-]+\.` of the domain pattern: the greedy
`+` takes the maximal run of label characters — the class excludes the
dot, so no shorter run can ever satisfy the following literal dot and the
repetition is deterministic — and requires a dot right after it. -/
def labelDot (cs : List Char) : Option (List Char × List Char) :=
  let r := cs.takeWhile dCls
  if r.length = 0 then none
  else
    match cs.drop r.length with
    | '.' :: rest => some (r ++ ['.'], rest)
    | _ => none

/-- Candidate splits of the unbounded greedy `(?:[a-zA-Z0-9-]+\.)+`,
most repetitions first; each repetition consumes at least two characters,
so fuel `cs.length` is always enough. -/
def labelChain : Nat → List Char → List (List Char × List Char)
  | 0, _ => []
  | fuel + 1, cs =>
    match labelDot cs with
    | none => []
    | some p => ((labelChain fuel p.2).map (fun q => (p.1 ++ q.1, q.2))) ++ [p]

/-- A match attempt of `DOMAIN_RE` at the current position: the leading
`\b` (with `prevW` the wordness of the previous character), the greedy
label chain, the case-insensitive suffix alternation in source order and
the trailing `\b`.  Returns the matched text and the rest. -/
def domainMatchAt (prevW : Bool) (cs : List Char) : Option (List Char × List Char) :=
  match cs with
  | [] => none
  | c :: _ =>
    if prevW != isWordCh c then
      (labelChain cs.length cs).findSome? (fun p =>
        TLD_ALTS.findSome? (fun a =>
          if (p.2.take a.length).map lowerCh == a.data &&
              bAfter (lastCh a.data ' ') (p.2.drop a.length)
          then some (p.1 ++ p.2.take a.length, p.2.drop a.length) else none))
    else none

/-- The `re.findall` scan of `DOMAIN_RE`: leftmost non-overlapping
matches, resuming after each match. -/
def domainScan : Nat → Bool → List Char → List (List Char)
  | 0, _, _ => []
  | _ + 1, _, [] => []
  | fuel + 1, prevW, c :: cs =>
    match domainMatchAt prevW (c :: cs) with
    | some p => p.1 :: domainScan fuel (isWordCh (lastCh p.1 ' ')) p.2
    | none => domainScan fuel (isWordCh c) cs

/-- All `DOMAIN_RE` matches of a text. -/
def domainFindall (s : String) : List String :=
  (domainScan (s.data.length + 1) false s.data).map (fun l => (⟨l⟩ : String))

/-- Code-point lexicographic comparison of character lists: exactly how
Python compares two strings. -/
def lexLe : List Char → List Char → Bool
  | [], _ => true
  | _ :: _, [] => false
  | a :: as, b :: bs =>
    if a.toNat < b.toNat then true
    else if b.toNat < a.toNat then false
    else lexLe as bs

/-- Model of Python `sorted(set(l))` for strings: duplicates removed,
then sorted by the code-point lexicographic order. -/
def pySortedStrSet (l : List String) : List String :=
  l.dedup.insertionSort (fun a b => lexLe a.data b.data = true)

/-- The post-processing step applied to each raw `DOMAIN_RE` match:
lowercase it and strip one leading `www.`. -/
def domainClean (d : String) : String :=
  let d := pyLower d
  if d.data.take 4 == ['w', 'w', 'w', '.'] then ⟨d.data.drop 4⟩ else d

/-- `extract_domains` from the source. -/
def extract_domains (text : String) : List String :=
  if text = "" then []
  else pySortedStrSet ((domainFindall text).map domainClean)

/-- Characters of a URL scheme after its leading letter
(`abcdefghijklmnopqrstuvwxyz0123456789+-.` in the stdlib). -/
def schemeCh (c : Char) : Bool :=
  c.isAlphanum || c = '+' || c = '-' || c = '.'

/-- Model of the network-location extraction of the stdlib collaborator
`urllib.parse.urlparse`: tab/CR/LF characters are removed, a valid
`scheme:` head is split off, the netloc is present only after `//` and
runs to the next `/`, `?` or `#`, and a netloc with an unbalanced square
bracket raises `ValueError` (the error case of the model). -/
def parseNetloc (url : String) : Except Unit String :=
  let u := url.data.filter (fun c => !(c = '\t' || c = '\r' || c = '\n'))
  let pre := u.takeWhile (· ≠ ':')
  let rest :=
    if pre.length < u.length && !pre.isEmpty &&
        (match pre with | c :: _ => c.isAlpha | [] => false) &&
        pre.all schemeCh
    then u.drop (pre.length + 1) else u
  match rest with
  | '/' :: '/' :: r =>
    let nl := r.takeWhile (fun c => !(c = '/' || c = '?' || c = '#'))
    if (nl.contains '[' && !nl.contains ']') ||
        (nl.contains ']' && !nl.contains '[') then Except.error ()
    else Except.ok ⟨nl⟩
  | _ => Except.ok ""

/-- `get_domain_from_url` from the source:
`urlparse(url).netloc.lower().split(":")[0]`, strip one leading `www.`,
empty host becomes `None`, any parse error is swallowed to `None`. -/
def hostFromNetloc (nl : String) : Option String :=
  let host := (pyLower nl).data.takeWhile (· ≠ ':')
  let host := if host.take 4 == ['w', 'w', 'w', '.'] then host.drop 4 else host
  if host = [] then none else some ⟨host⟩

def get_domain_from_url (url : String) : Option String :=
  match parseNetloc url with
  | Except.error _ => none
  | Except.ok nl => hostFromNetloc nl

/-! ## Relevance scoring (`compute_score`) -/

/-- Model of Python's substring test `needle in hay`. -/
def containsSub (needle : List Char) : List Char → Bool
  | [] => needle.isEmpty
  | c :: t => needle.isPrefixOf (c :: t) || containsSub needle t

/-- The positive keyword weights, in source (insertion) order. -/
def KEYWORDS_POS : List (String × Int) :=
  [("raises", 18), ("raised", 18), ("funding", 14), ("seed", 10),
   ("series", 10), ("acquires", 16), ("acquired", 16), ("launches", 10),
   ("launched", 10), ("secures", 14), ("secured", 14), ("lands", 12),
   ("landed", 12), ("partners", 8), ("partnership", 8)]

/-- The negative keyword weights, in source (insertion) order. -/
def KEYWORDS_NEG : List (String × Int) :=
  [("opinion", -8), ("podcast", -6), ("newsletter", -6), ("how to", -8),
   ("analysis", -4), ("explainer", -6)]

/-- `compute_score` from the source: base 50, plus the weight of every
positive and negative keyword occurring as a substring of the lowercased
`title summary` text, plus 12 when any domain was found and 4 more when
one of them ends in `.info`, clamped to `[0, 100]`. -/
def compute_score (title summary : String) (domains : List String) : Int :=
  let text := (pyLower ⟨title.data ++ ' ' :: summary.data⟩).data
  let score := KEYWORDS_POS.foldl
    (fun acc kw => if containsSub kw.1.data text then acc + kw.2 else acc) 50
  let score := KEYWORDS_NEG.foldl
    (fun acc kw => if containsSub kw.1.data text then acc + kw.2 else acc) score
  let score :=
    if domains ≠ [] then
      score + 12 +
        (if domains.any (fun d => List.isSuffixOf ".info".data d.data) then 4 else 0)
    else score
  max 0 (min 100 score)

/-! ## MD5 and the external identifier

The source computes `hashlib.md5((link or "").encode("utf-8")).hexdigest()`.
The stdlib collaborator `hashlib.md5` is embedded in full over `Nat`
arithmetic modulo `2^32` (RFC 1321), together with UTF-8 encoding. -/

/-- UTF-8 encoding of one code point, as a list of byte values. -/
def utf8Ch (c : Char) : List Nat :=
  let n := c.toNat
  if n < 128 then [n]
  else if n < 2048 then [192 + n / 64, 128 + n % 64]
  else if n < 65536 then [224 + n / 4096, 128 + n / 64 % 64, 128 + n % 64]
  else [240 + n / 262144, 128 + n / 4096 % 64, 128 + n / 64 % 64, 128 + n % 64]

/-- UTF-8 encoding of a string, the model of `str.encode("utf-8")`. -/
def utf8Bytes (s : String) : List Nat :=
  s.data.flatMap utf8Ch

/-- The round-shift table of MD5. -/
def md5S : List Nat :=
  [7, 12, 17, 22, 7, 12, 17, 22, 7, 12, 17, 22, 7, 12, 17, 22,
   5, 9, 14, 20, 5, 9, 14, 20, 5, 9, 14, 20, 5, 9, 14, 20,
   4, 11, 16, 23, 4, 11, 16, 23, 4, 11, 16, 23, 4, 11, 16, 23,
   6, 10, 15, 21, 6, 10, 15, 21, 6, 10, 15, 21, 6, 10, 15, 21]

/-- The sine-derived constant table of MD5. -/
def md5K : List Nat :=
  [3614090360, 3905402710, 606105819, 3250441966, 4118548399, 1200080426, 2821735955, 4249261313,
   1770035416, 2336552879, 4294925233, 2304563134, 1804603682, 4254626195, 2792965006, 1236535329,
   4129170786, 3225465664, 643717713, 3921069994, 3593408605, 38016083, 3634488961, 3889429448,
   568446438, 3275163606, 4107603335, 1163531501, 2850285829, 4243563512, 1735328473, 2368359562,
   4294588738, 2272392833, 1839030562, 4259657740, 2763975236, 1272893353, 4139469664, 3200236656,
   681279174, 3936430074, 3572445317, 76029189, 3654602809, 3873151461, 530742520, 3299628645,
   4096336452, 1126891415, 2878612391, 4237533241, 1700485571, 2399980690, 4293915773, 2240044497,
   1873313359, 4264355552, 2734768916, 1309151649, 4149444226, 3174756917, 718787259, 3951481745]

/-- Bitwise complement on 32-bit values represented as `Nat`s below `2^32`. -/
def not32 (a : Nat) : Nat := 4294967295 - a

/-- 32-bit left rotation. -/
def rotl32 (x s : Nat) : Nat :=
  ((x <<< s) % 4294967296) ||| (x >>> (32 - s))

/-- The MD5 round function for round `i`. -/
def md5F (i b c d : Nat) : Nat :=
  if i < 16 then (b &&& c) ||| (not32 b &&& d)
  else if i < 32 then (d &&& b) ||| (not32 d &&& c)
  else if i < 48 then b ^^^ c ^^^ d
  else c ^^^ (b ||| not32 d)

/-- The message-word index for round `i`. -/
def md5G (i : Nat) : Nat :=
  if i < 16 then i
  else if i < 32 then (5 * i + 1) % 16
  else if i < 48 then (3 * i + 5) % 16
  else (7 * i) % 16

/-- One MD5 round on the state `(a, b, c, d)` with message words `m`. -/
def md5Round (m : List Nat) (st : Nat × Nat × Nat × Nat) (i : Nat) :
    Nat × Nat × Nat × Nat :=
  let (a, b, c, d) := st
  let f := (md5F i b c d + a + md5K.getD i 0 + m.getD (md5G i) 0) % 4294967296
  (d, (b + rotl32 f (md5S.getD i 0)) % 4294967296, b, c)

/-- Split 64 bytes into 16 little-endian 32-bit words. -/
def md5Words : List Nat → List Nat
  | b0 :: b1 :: b2 :: b3 :: rest =>
    (b0 + 256 * b1 + 65536 * b2 + 16777216 * b3) :: md5Words rest
  | _ => []

/-- Process the 64-byte blocks of a padded message. -/
def md5Blocks : Nat → Nat × Nat × Nat × Nat → List Nat → Nat × Nat × Nat × Nat
  | 0, st, _ => st
  | _ + 1, st, [] => st
  | fuel + 1, st, bytes =>
    let m := md5Words (bytes.take 64)
    let (a, b, c, d) := st
    let (a', b', c', d') := (List.range 64).foldl (md5Round m) st
    md5Blocks fuel
      ((a + a') % 4294967296, (b + b') % 4294967296,
       (c + c') % 4294967296, (d + d') % 4294967296)
      (bytes.drop 64)

/-- MD5 padding: `0x80`, zeros to 56 mod 64, then the bit length as a
little-endian 64-bit integer. -/
def md5Pad (bytes : List Nat) : List Nat :=
  let n := bytes.length
  let zeros := (119 - n % 64) % 64
  let len := (8 * n) % 18446744073709551616
  bytes ++ 128 :: List.replicate zeros 0 ++
    [len % 256, len / 256 % 256, len / 65536 % 256, len / 16777216 % 256,
     len / 4294967296 % 256, len / 1099511627776 % 256,
     len / 281474976710656 % 256, len / 72057594037927936 % 256]

/-- A 32-bit word as four little-endian byte values. -/
def word4 (w : Nat) : List Nat :=
  [w % 256, w / 256 % 256, w / 65536 % 256, w / 16777216 % 256]

/-- The sixteen digest bytes of MD5. -/
def md5Digest (bytes : List Nat) : List Nat :=
  let padded := md5Pad bytes
  let st :=
    md5Blocks (padded.length / 64) (1732584193, 4023233417, 2562383102, 271733878) padded
  word4 st.1 ++ word4 st.2.1 ++ word4 st.2.2.1 ++ word4 st.2.2.2

/-- The lower-case hexadecimal digits. -/
def hexDigits : List Char :=
  "0123456789abcdef".data

/-- One byte as two lower-case hex characters, high nibble first. -/
def hexByte (b : Nat) : List Char :=
  [hexDigits.getD (b / 16 % 16) '0', hexDigits.getD (b % 16) '0']

/-- `hashlib.md5(bytes).hexdigest()`. -/
def md5Hex (bytes : List Nat) : String :=
  ⟨(md5Digest bytes).flatMap hexByte⟩

/-- `generate_external_id` from the source:
`hashlib.md5((link or "").encode("utf-8")).hexdigest()`.  The argument is
an `Option` so that a missing (`None`) link is distinguished from an
empty one; `link or ""` maps both to the empty string (a non-empty
string is its own truthy value). -/
def generate_external_id (link : Option String) : String :=
  md5Hex (utf8Bytes (match link with
    | none => ""
    | some s => if s = "" then "" else s))

/-! ## Text cleaning and the record-assembly loop (`clean_text`, `process`) -/

/-- Modelled from the spec: "decodes HTML entities".  The collaborator
`html.unescape` resolves the full HTML5 named-entity table, which is an
external data file of the Python stdlib; the model resolves the core XML
entities and leaves everything else unchanged, which is entity decoding
restricted to the entities the claims exercise. -/
def unescapeChs : Nat → List Char → List Char
  | 0, l => l
  | _ + 1, [] => []
  | fuel + 1, '&' :: rest =>
    if rest.take 4 == "amp;".data then '&' :: unescapeChs fuel (rest.drop 4)
    else if rest.take 3 == "lt;".data then '<' :: unescapeChs fuel (rest.drop 3)
    else if rest.take 3 == "gt;".data then '>' :: unescapeChs fuel (rest.drop 3)
    else if rest.take 5 == "quot;".data then '"' :: unescapeChs fuel (rest.drop 5)
    else if rest.take 5 == "apos;".data then '\x27' :: unescapeChs fuel (rest.drop 5)
    else '&' :: unescapeChs fuel rest
  | fuel + 1, c :: rest => c :: unescapeChs fuel rest

/-- The tag-stripping substitution `re.sub(r"<[^>]+>", " ", s)`:
leftmost non-overlapping matches of `<`, one or more non-`>` characters,
`>`, each replaced by one space. -/
def stripTags : Nat → List Char → List Char
  | 0, l => l
  | _ + 1, [] => []
  | fuel + 1, '<' :: rest =>
    let body := rest.takeWhile (· ≠ '>')
    if body.length = 0 then '<' :: stripTags fuel rest
    else
      match rest.drop body.length with
      | '>' :: r2 => ' ' :: stripTags fuel r2
      | _ => '<' :: stripTags fuel rest
  | fuel + 1, c :: rest => c :: stripTags fuel rest

/-- `clean_text` from the source: decode HTML entities, replace markup
tags by spaces, normalise whitespace. -/
def clean_text (s : String) : String :=
  let u := unescapeChs (s.data.length + 1) s.data
  normalize_spaces ⟨stripTags (u.length + 1) u⟩

/-- One feed entry as the pipeline reads it: `title`, `link` and
`summary`, with missing attributes already defaulted to the empty string
(`getattr(entry, _, "") or ""`). -/
structure FeedEntry where
  title : String
  link : String
  summary : String
deriving DecidableEq

/-- One row handed to the upsert sink, with the fields built in
`process`. -/
structure StartupRow where
  external_id : String
  name : String
  raw_title : String
  description : String
  source_url : String
  source_type : String
  rank_score : Int
  tm_risk : String
  dom_risk : String
  verification_status : String
  confidence : Int
  created_at : String
deriving DecidableEq

/-- The per-entry body of the `process` loop: clean the fields, extract
the name (a falsy name — `None` or the empty string — drops the entry),
gather the domains from title, summary and link host, filter and sort
them, score, and assemble the row.  `now` stands for the
`utc_now_iso()` timestamp of the run. -/
def assembleRow (now : String) (e : FeedEntry) (name : String) : StartupRow :=
  let title := clean_text e.title
  let link := e.link
  let summary := clean_text e.summary
  let gathered := extract_domains title ++ extract_domains summary ++
    (match get_domain_from_url link with | some h => [h] | none => [])
  let domains := pySortedStrSet
    (gathered.filter (fun d => d ≠ "" && d.data.contains '.'))
  { external_id := generate_external_id (some link)
    name := name
    raw_title := ⟨title.data.take 400⟩
    description := ⟨summary.data.take 400⟩
    source_url := link
    source_type := "WebScan"
    rank_score := compute_score title summary domains
    tm_risk := "MED"
    dom_risk := "MED"
    verification_status := "UNVERIFIED"
    confidence := 0
    created_at := now }

def entryRow (now : String) (e : FeedEntry) : Option StartupRow :=
  match extract_company_name (clean_text e.title) with
  | none => none
  | some name =>
    if name = "" then none else some (assembleRow now e name)

/-- The assembled record stream of `process`: for each feed, the first
15 entries are processed in order and the entries whose name extraction
failed are skipped; every surviving entry contributes exactly one row,
in order, to the upsert sink. -/
def processRows (feeds : List (List FeedEntry)) (now : String) : List StartupRow :=
  feeds.flatMap (fun feed => (feed.take 15).filterMap (entryRow now))

/-! ## Helper lemmas about the hex digest -/

theorem length_word4 (w : Nat) : (word4 w).length = 4 := rfl

theorem length_md5Digest (bytes : List Nat) : (md5Digest bytes).length = 16 := by
  simp [md5Digest, word4]

theorem length_flatMap_hexByte :
    ∀ l : List Nat, (l.flatMap hexByte).length = 2 * l.length := by
  intro l
  induction l with
  | nil => rfl
  | cons b t ih => simp [hexByte, List.flatMap_cons, ih]; omega

theorem length_md5Hex (bytes : List Nat) : (md5Hex bytes).length = 32 := by
  show ((md5Digest bytes).flatMap hexByte).length = 32
  rw [length_flatMap_hexByte, length_md5Digest]

theorem getD_mem_hexDigits {k : Nat} (hk : k < 16) : hexDigits.getD k '0' ∈ hexDigits := by
  have hk' : k < hexDigits.length := by
    have : hexDigits.length = 16 := rfl
    omega
  rw [List.getD_eq_getElem?_getD, List.getElem?_eq_getElem hk', Option.getD_some]
  exact List.getElem_mem hk'

theorem mem_hexByte {c : Char} {b : Nat} (h : c ∈ hexByte b) : c ∈ hexDigits := by
  simp only [hexByte, List.mem_cons, List.not_mem_nil, or_false] at h
  rcases h with h | h
  · rw [h]; exact getD_mem_hexDigits (Nat.mod_lt _ (by decide))
  · rw [h]; exact getD_mem_hexDigits (Nat.mod_lt _ (by decide))

theorem mem_md5Hex {c : Char} {bytes : List Nat} (h : c ∈ (md5Hex bytes).data) :
    c ∈ hexDigits := by
  have h' : c ∈ (md5Digest bytes).flatMap hexByte := h
  rcases List.mem_flatMap.1 h' with ⟨b, _, hc⟩
  exact mem_hexByte hc

theorem generate_external_id_ne_empty (link : Option String) :
    generate_external_id link ≠ "" := by
  intro h
  have h32 : (generate_external_id link).length = 32 := length_md5Hex _
  rw [h] at h32
  exact absurd h32 (by decide)

/-! ## The claims -/

/-- Claim C3: `compute_score` is a deterministic pure function of its
inputs and always returns an integer in `[0, 100]`, in particular on
empty titles, summaries and domain lists. -/
theorem claim_C3_compute_score_bounded (title summary : String) (domains : List String) :
    0 ≤ compute_score title summary domains ∧
    compute_score title summary domains ≤ 100 ∧
    (∀ t s : String, ∀ d : List String, t = title → s = summary → d = domains →
      compute_score t s d = compute_score title summary domains) := by
  refine ⟨le_max_left 0 _, max_le (by norm_num) (min_le_left _ _), ?_⟩
  intro t s d ht hs hd
  rw [ht, hs, hd]

/-- Witness for C3 at concrete inputs, including the empty ones. -/
theorem claim_C3_witness :
    0 ≤ compute_score "" "" [] ∧ compute_score "" "" [] ≤ 100 ∧
    compute_score "Acme raises funds" "" [] = compute_score "Acme raises funds" "" [] :=
  ⟨(claim_C3_compute_score_bounded "" "" []).1,
   (claim_C3_compute_score_bounded "" "" []).2.1,
   (claim_C3_compute_score_bounded "Acme raises funds" "" []).2.2
     "Acme raises funds" "" [] rfl rfl rfl⟩

/-- Claim C5: on `"Acme Corp raises $10M"` the strong action-verb pattern
matches and returns `"Acme Corp"` unchanged (`"Corp"` is not an
organization suffix), and on `"OpenAI's new model"` the possessive strong
pattern returns `"OpenAI"`. -/
theorem claim_C5_strong_patterns :
    extract_company_name "Acme Corp raises $10M" = some "Acme Corp" ∧
    extract_company_name "OpenAI's new model" = some "OpenAI" ∧
    "Corp" ∉ ORG_SUFFIX :=
  ⟨by decide, by decide, by decide⟩

/-- Claim C6: `"UK Startups Raise Record Funding"` defeats both strong
patterns and every fallback candidate, so no name is extracted. -/
theorem claim_C6_noise_rejected :
    extract_company_name "UK Startups Raise Record Funding" = none := by
  decide

/-- Claim C7: on title `"Acme raises funds"` and summary
`"Visit acme.io for details"` the extracted domain set is `{acme.io}` and
the score is exactly base 50 + 18 for `raises` + the flat domain bonus of
12, that is 80 (within the claimed `{78, 80}` band). -/
theorem claim_C7_domain_bonus :
    extract_domains "Visit acme.io for details" = ["acme.io"] ∧
    compute_score "Acme raises funds" "Visit acme.io for details" ["acme.io"] =
      50 + 18 + 12 :=
  ⟨by decide, by decide⟩

/-- Claim C8: `generate_external_id` is a deterministic function of the
link alone, equal to the hex-encoded MD5 digest of the link's UTF-8
bytes; the `"abc"` conjunct pins the embedded MD5 to the standard
RFC 1321 test vector. -/
theorem claim_C8_external_id_md5 :
    (∀ l₁ l₂ : Option String, l₁ = l₂ →
      generate_external_id l₁ = generate_external_id l₂) ∧
    (∀ link : String, generate_external_id (some link) = md5Hex (utf8Bytes link)) ∧
    generate_external_id (some "abc") = "900150983cd24fb0d6963f7d28e17f72" := by
  refine ⟨fun l₁ l₂ h => by rw [h], fun link => ?_, by decide⟩
  by_cases h : link = ""
  · rw [h]; rfl
  · show md5Hex (utf8Bytes (if link = "" then "" else link)) = _
    rw [if_neg h]

/-- Witness for C8: the determinism conjunct applied at a concrete link. -/
theorem claim_C8_witness :
    generate_external_id (some "http://x.com/a") =
      generate_external_id (some "http://x.com/a") :=
  claim_C8_external_id_md5.1 (some "http://x.com/a") (some "http://x.com/a") rfl

/-- Claim C10: `generate_external_id` is total, treats a missing link
like the empty one — so all link-less entries share the MD5 of `""` —
and always yields a 32-character string of lower-case hex digits. -/
theorem claim_C10_external_id_shape (link : Option String) :
    (generate_external_id link).length = 32 ∧
    (∀ c ∈ (generate_external_id link).data, c ∈ hexDigits) ∧
    generate_external_id none = generate_external_id (some "") ∧
    generate_external_id none = "d41d8cd98f00b204e9800998ecf8427e" :=
  ⟨length_md5Hex _, fun _ hc => mem_md5Hex hc, rfl, by decide⟩

/-- Witness for C10: the hex-digit property applied at a concrete link
and character. -/
theorem claim_C10_witness :
    '9' ∈ (generate_external_id (some "x")).data ∧ '9' ∈ hexDigits :=
  ⟨by decide, (claim_C10_external_id_shape (some "x")).2.1 '9' (by decide)⟩

/-- Claim C2: a row is assembled and handed to the upsert sink only when
name extraction on the cleaned title succeeded (with a non-falsy name);
every assembled row carries that non-empty name and the external id of
its link, so an entry whose extracted name is `none` never appears in
the record stream. -/
theorem claim_C2_record_stream (feeds : List (List FeedEntry)) (now : String)
    (r : StartupRow) (h : r ∈ processRows feeds now) :
    r.name ≠ "" ∧ r.external_id ≠ "" ∧
    ∃ feed ∈ feeds, ∃ e ∈ feed,
      extract_company_name (clean_text e.title) = some r.name ∧
      r.external_id = generate_external_id (some e.link) := by
  rcases List.mem_flatMap.1 h with ⟨feed, hfeed, hr⟩
  rcases List.mem_filterMap.1 hr with ⟨e, he, heq⟩
  have he' : e ∈ feed := List.take_subset 15 feed he
  unfold entryRow at heq
  split at heq
  · cases heq
  · rename_i name hname
    split at heq
    · cases heq
    · rename_i hempty
      have hr' : assembleRow now e name = r := Option.some.inj heq
      subst hr'
      exact ⟨hempty, generate_external_id_ne_empty (some e.link),
        feed, hfeed, e, he', hname, rfl⟩

/-- Witness for C2: a concrete one-entry feed whose row is in the
stream. -/
theorem claim_C2_witness :
    (processRows [[⟨"OpenAI's new model", "http://x.com/a", "Great."⟩]]
        "2026-10-12T00:00:00+00:00").head?.map StartupRow.name = some "OpenAI" ∧
    ∃ feed ∈ [[(⟨"OpenAI's new model", "http://x.com/a", "Great."⟩ : FeedEntry)]],
      ∃ e ∈ feed, extract_company_name (clean_text e.title) = some "OpenAI" := by
  constructor
  · decide
  · have h := claim_C2_record_stream
      [[⟨"OpenAI's new model", "http://x.com/a", "Great."⟩]]
      "2026-10-12T00:00:00+00:00"
      { external_id := generate_external_id (some "http://x.com/a")
        name := "OpenAI"
        raw_title := "OpenAI's new model"
        description := "Great."
        source_url := "http://x.com/a"
        source_type := "WebScan"
        rank_score := 62
        tm_risk := "MED"
        dom_risk := "MED"
        verification_status := "UNVERIFIED"
        confidence := 0
        created_at := "2026-10-12T00:00:00+00:00" }
      (by decide)
    obtain ⟨feedA, hfA, eA, heA, hxA, _⟩ := h.2.2
    exact ⟨feedA, hfA, eA, heA, hxA⟩

/-- Claim C9: `get_domain_from_url` never raises: a URL whose parse
fails, and a URL with an empty network location, give `none`; otherwise
the result is the non-empty hostname obtained from the lowercased netloc
with the port suffix (everything from the first colon on) removed and a
leading `www.` stripped — so the returned host never contains a colon. -/
theorem hostFromNetloc_spec (nl : String) :
    hostFromNetloc nl = none ∨
    ∃ h : String, hostFromNetloc nl = some h ∧ h ≠ "" ∧
      h.data.all (· ≠ ':') ∧
      ((pyLower nl).data.takeWhile (· ≠ ':') = h.data ∨
        (pyLower nl).data.takeWhile (· ≠ ':') = 'w' :: 'w' :: 'w' :: '.' :: h.data) := by
  have hball : ∀ c ∈ (pyLower nl).data.takeWhile (· ≠ ':'), c ≠ ':' := by
    intro c hc
    have := List.mem_takeWhile_imp hc
    simpa using this
  simp only [hostFromNetloc]
  set b := (pyLower nl).data.takeWhile (· ≠ ':') with hb
  by_cases hwww : b.take 4 == ['w', 'w', 'w', '.']
  · rw [if_pos hwww]
    by_cases hnil : b.drop 4 = []
    · rw [if_pos hnil]
      exact Or.inl rfl
    · rw [if_neg hnil]
      refine Or.inr ⟨⟨b.drop 4⟩, rfl, ?_, ?_, Or.inr ?_⟩
      · intro hcon
        exact hnil (congrArg String.data hcon)
      · exact List.all_eq_true.2 fun c hc =>
          decide_eq_true (hball c (List.mem_of_mem_drop hc))
      · have h4 : b.take 4 = ['w', 'w', 'w', '.'] := beq_iff_eq.1 hwww
        calc b = b.take 4 ++ b.drop 4 := (List.take_append_drop 4 b).symm
          _ = 'w' :: 'w' :: 'w' :: '.' :: b.drop 4 := by rw [h4]; rfl
  · rw [if_neg hwww]
    by_cases hnil : b = []
    · rw [if_pos hnil]
      exact Or.inl rfl
    · rw [if_neg hnil]
      refine Or.inr ⟨⟨b⟩, rfl, ?_, ?_, Or.inl rfl⟩
      · intro hcon
        exact hnil (congrArg String.data hcon)
      · exact List.all_eq_true.2 fun c hc => decide_eq_true (hball c hc)

/-- Claim C9: `get_domain_from_url` never raises: a URL whose parse
fails, and a URL with an empty network location, give `none`; otherwise
the result is the non-empty hostname obtained from the lowercased netloc
with the port suffix (everything from the first colon on) removed and a
leading `www.` stripped - so the returned host never contains a colon. -/
theorem claim_C9_get_domain (url : String) :
    (∀ e : Unit, parseNetloc url = Except.error e → get_domain_from_url url = none) ∧
    (parseNetloc url = Except.ok "" → get_domain_from_url url = none) ∧
    (get_domain_from_url url = none ∨
      ∃ h nl, parseNetloc url = Except.ok nl ∧
        get_domain_from_url url = some h ∧ h ≠ "" ∧
        h.data.all (· ≠ ':') ∧
        ((pyLower nl).data.takeWhile (· ≠ ':') = h.data ∨
          (pyLower nl).data.takeWhile (· ≠ ':') = 'w' :: 'w' :: 'w' :: '.' :: h.data)) := by
  unfold get_domain_from_url
  rcases hp : parseNetloc url with e | nl
  · exact ⟨fun _ _ => rfl, fun h => Except.noConfusion h, Or.inl rfl⟩
  · refine ⟨fun e he => Except.noConfusion he, fun h => ?_, ?_⟩
    · have h' : nl = "" := Except.ok.inj h
      rw [h']
      rfl
    · rcases hostFromNetloc_spec nl with hnone | ⟨h, hsome, hne, hcolon, hshape⟩
      · exact Or.inl hnone
      · exact Or.inr ⟨h, nl, rfl, hsome, hne, hcolon, hshape⟩

/-- Witness for C9: the parse-failure and empty-netloc hypotheses
discharged at concrete URLs (an unbalanced IPv6 bracket raises in the
stdlib parser; `"//"` has an empty netloc). -/
theorem claim_C9_witness :
    get_domain_from_url "http://[::1" = none ∧
    get_domain_from_url "//" = none :=
  ⟨(claim_C9_get_domain "http://[::1").1 () rfl,
   (claim_C9_get_domain "//").2.1 rfl⟩

/-! ## Lemmas about whitespace splitting -/

theorem strEta (s : String) : (⟨s.data⟩ : String) = s := by
  cases s
  rfl

theorem wCls_not_space {c : Char} (h : wCls c = true) : pySpace c = false := by
  cases hs : pySpace c
  · rfl
  · exfalso
    unfold pySpace at hs
    unfold wCls at h
    rcases Bool.or_eq_true_iff.1 hs with h' | h5
    · rcases Bool.or_eq_true_iff.1 h' with h'' | h5
      · rcases Bool.or_eq_true_iff.1 h'' with h3 | h5
        · rcases Bool.or_eq_true_iff.1 h3 with h4 | h5
          · rcases Bool.or_eq_true_iff.1 h4 with h5 | h5
            all_goals (rw [decide_eq_true_iff.1 h5] at h; exact Bool.noConfusion h)
          · rw [decide_eq_true_iff.1 h5] at h; exact Bool.noConfusion h
        · rw [decide_eq_true_iff.1 h5] at h; exact Bool.noConfusion h
      · rw [decide_eq_true_iff.1 h5] at h; exact Bool.noConfusion h
    · rw [decide_eq_true_iff.1 h5] at h; exact Bool.noConfusion h

theorem splitWsAux_nil {acc : List Char} (ha : acc ≠ []) :
    splitWsAux acc [] = [acc.reverse] := by
  unfold splitWsAux
  rw [if_neg ha]

theorem splitWsAux_cons_nonspace {c : Char} {acc cs : List Char}
    (hc : pySpace c = false) :
    splitWsAux acc (c :: cs) = splitWsAux (c :: acc) cs := by
  conv_lhs => unfold splitWsAux
  rw [hc]
  simp

theorem splitWsAux_cons_space_nil {c : Char} {cs : List Char} (hc : pySpace c = true) :
    splitWsAux [] (c :: cs) = splitWsAux [] cs := by
  conv_lhs => unfold splitWsAux
  rw [hc]
  simp

theorem splitWsAux_cons_space {c : Char} {acc cs : List Char} (hc : pySpace c = true)
    (ha : acc ≠ []) :
    splitWsAux acc (c :: cs) = acc.reverse :: splitWsAux [] cs := by
  conv_lhs => unfold splitWsAux
  rw [hc]
  simp [ha]

theorem splitWsAux_append_word {w : List Char} (hw : ∀ c ∈ w, pySpace c = false) :
    ∀ acc cs, splitWsAux acc (w ++ cs) = splitWsAux (w.reverse ++ acc) cs := by
  induction w with
  | nil => intro acc cs; simp
  | cons c w' ih =>
    intro acc cs
    have hc : pySpace c = false := hw c (List.mem_cons_self c w')
    have hw' : ∀ c ∈ w', pySpace c = false :=
      fun d hd => hw d (List.mem_cons_of_mem c hd)
    show splitWsAux acc (c :: (w' ++ cs)) = _
    rw [splitWsAux_cons_nonspace hc, ih hw' (c :: acc) cs]
    congr 1
    simp

theorem splitWs_word {w : List Char} (hne : w ≠ [])
    (hw : ∀ c ∈ w, pySpace c = false) : splitWs w = [w] := by
  unfold splitWs
  have h := splitWsAux_append_word hw [] []
  rw [List.append_nil] at h
  rw [h, List.append_nil, splitWsAux_nil (by simpa using hne), List.reverse_reverse]

theorem splitWs_word_sp {w : List Char} {sp : Char} {rest : List Char}
    (hne : w ≠ []) (hw : ∀ c ∈ w, pySpace c = false) (hsp : pySpace sp = true) :
    splitWs (w ++ sp :: rest) = w :: splitWs rest := by
  unfold splitWs
  rw [splitWsAux_append_word hw [] (sp :: rest), List.append_nil,
    splitWsAux_cons_space hsp (by simpa using hne), List.reverse_reverse]

theorem splitWsAux_good :
    ∀ cs acc, (∀ c ∈ acc, pySpace c = false) →
      ∀ w ∈ splitWsAux acc cs, w ≠ [] ∧ ∀ c ∈ w, pySpace c = false := by
  intro cs
  induction cs with
  | nil =>
    intro acc hacc w hw
    by_cases h : acc = []
    · rw [h] at hw; cases hw
    · rw [splitWsAux_nil h] at hw
      rw [List.mem_singleton.1 hw]
      exact ⟨by simpa using h, fun c hc => hacc c (List.mem_reverse.1 hc)⟩
  | cons c cs ih =>
    intro acc hacc w hw
    cases hc : pySpace c with
    | true =>
      by_cases h : acc = []
      · rw [h, splitWsAux_cons_space_nil hc] at hw
        exact ih [] (by intro d hd; cases hd) w hw
      · rw [splitWsAux_cons_space hc h] at hw
        rcases List.mem_cons.1 hw with hw' | hw'
        · rw [hw']
          exact ⟨by simpa using h, fun d hd => hacc d (List.mem_reverse.1 hd)⟩
        · exact ih [] (by intro d hd; cases hd) w hw'
    | false =>
      rw [splitWsAux_cons_nonspace hc] at hw
      refine ih (c :: acc) ?_ w hw
      intro d hd
      rcases List.mem_cons.1 hd with hd' | hd'
      · rw [hd']; exact hc
      · exact hacc d hd'

theorem splitWs_good {cs : List Char} :
    ∀ w ∈ splitWs cs, w ≠ [] ∧ ∀ c ∈ w, pySpace c = false :=
  splitWsAux_good cs [] (by intro d hd; cases hd)

theorem splitWs_joinSp :
    ∀ toks : List (List Char),
      (∀ w ∈ toks, w ≠ [] ∧ ∀ c ∈ w, pySpace c = false) →
      splitWs (joinSp toks) = toks := by
  intro toks
  induction toks with
  | nil => intro _; rfl
  | cons w ws ih =>
    intro h
    have hw := h w (List.mem_cons_self w ws)
    cases ws with
    | nil => exact splitWs_word hw.1 hw.2
    | cons t ts =>
      show splitWs (w ++ ' ' :: joinSp (t :: ts)) = _
      rw [splitWs_word_sp hw.1 hw.2 (by decide)]
      rw [ih (fun u hu => h u (List.mem_cons_of_mem w hu))]

theorem splitWsAux_all_space :
    ∀ v acc, (∀ c ∈ v, pySpace c = true) → splitWsAux acc v = splitWsAux acc [] := by
  intro v
  induction v with
  | nil => intro acc _; rfl
  | cons c t ih =>
    intro acc hv
    have hc : pySpace c = true := hv c (List.mem_cons_self c t)
    have ht : ∀ d ∈ t, pySpace d = true := fun d hd => hv d (List.mem_cons_of_mem c hd)
    by_cases h : acc = []
    · rw [h, splitWsAux_cons_space_nil hc, ih [] ht]
    · rw [splitWsAux_cons_space hc h, ih [] ht, splitWsAux_nil h]
      rfl

theorem splitWsAux_append_all_space :
    ∀ u v acc, (∀ c ∈ v, pySpace c = true) →
      splitWsAux acc (u ++ v) = splitWsAux acc u := by
  intro u
  induction u with
  | nil =>
    intro v acc hv
    rw [List.nil_append]
    exact splitWsAux_all_space v acc hv
  | cons c t ih =>
    intro v acc hv
    show splitWsAux acc (c :: (t ++ v)) = splitWsAux acc (c :: t)
    cases hc : pySpace c with
    | true =>
      by_cases h : acc = []
      · rw [h, splitWsAux_cons_space_nil hc, splitWsAux_cons_space_nil hc, ih v [] hv]
      · rw [splitWsAux_cons_space hc h, splitWsAux_cons_space hc h, ih v [] hv]
    | false =>
      rw [splitWsAux_cons_nonspace hc, splitWsAux_cons_nonspace hc]
      exact ih v (c :: acc) hv

theorem splitWs_dropWhile (l : List Char) :
    splitWs (l.dropWhile pySpace) = splitWs l := by
  induction l with
  | nil => rfl
  | cons c t ih =>
    cases hc : pySpace c with
    | true =>
      rw [List.dropWhile_cons, hc]
      simp only [if_true]
      rw [ih]
      exact (splitWsAux_cons_space_nil hc).symm
    | false =>
      rw [List.dropWhile_cons, hc]
      simp

theorem splitWs_pyStrip (l : List Char) : splitWs (pyStripL l) = splitWs l := by
  unfold pyStripL
  set l' := l.dropWhile pySpace with hl'
  have hdecomp : l' = (l'.reverse.dropWhile pySpace).reverse ++
      (l'.reverse.takeWhile pySpace).reverse := by
    calc l' = l'.reverse.reverse := (List.reverse_reverse l').symm
      _ = (l'.reverse.takeWhile pySpace ++ l'.reverse.dropWhile pySpace).reverse := by
          rw [List.takeWhile_append_dropWhile]
      _ = _ := by rw [List.reverse_append]
  have htail : ∀ c ∈ (l'.reverse.takeWhile pySpace).reverse, pySpace c = true := by
    intro c hc
    exact List.mem_takeWhile_imp (List.mem_reverse.1 hc)
  calc splitWs (l'.reverse.dropWhile pySpace).reverse
      = splitWs ((l'.reverse.dropWhile pySpace).reverse ++
        (l'.reverse.takeWhile pySpace).reverse) := by
        exact (splitWsAux_append_all_space _ _ [] htail).symm
    _ = splitWs l' := by rw [← hdecomp]
    _ = splitWs l := splitWs_dropWhile l

theorem pyStrip_noop {l : List Char} (h : ∀ c ∈ l, pySpace c = false) :
    pyStripL l = l := by
  unfold pyStripL
  have h1 : l.dropWhile pySpace = l :=
    List.dropWhile_eq_self_iff.2 (fun hl => by simp [h _ (List.getElem_mem hl)])
  have h2 : l.reverse.dropWhile pySpace = l.reverse :=
    List.dropWhile_eq_self_iff.2 (fun hl => by
      have hlen : l.length - 1 < l.length := by
        rw [List.length_reverse] at hl
        omega
      simp [h _ (List.getElem_mem hlen)])
  rw [h1, h2, List.reverse_reverse]

theorem collapseAux_space_true {c : Char} {t : List Char} (hc : pySpace c = true) :
    collapseAux true (c :: t) = collapseAux true t := by
  conv_lhs => unfold collapseAux
  rw [hc]
  simp

theorem collapseAux_space_false {c : Char} {t : List Char} (hc : pySpace c = true) :
    collapseAux false (c :: t) = ' ' :: collapseAux true t := by
  conv_lhs => unfold collapseAux
  rw [hc]
  simp

theorem collapseAux_nonspace {flag : Bool} {c : Char} {t : List Char}
    (hc : pySpace c = false) :
    collapseAux flag (c :: t) = c :: collapseAux false t := by
  conv_lhs => unfold collapseAux
  rw [hc]
  simp

/-- Collapsing whitespace runs does not change the whitespace-split
token list (`inRun = true` is only reached with an empty accumulator). -/
theorem splitWsAux_collapse :
    ∀ (l : List Char) (flag : Bool) (acc : List Char),
      (flag = true → acc = []) →
      splitWsAux acc (collapseAux flag l) = splitWsAux acc l := by
  intro l
  induction l with
  | nil => intro flag acc _; rfl
  | cons c t ih =>
    intro flag acc hflag
    cases hc : pySpace c with
    | true =>
      cases flag with
      | true =>
        rw [hflag rfl, collapseAux_space_true hc, splitWsAux_cons_space_nil hc]
        exact ih true [] (fun _ => rfl)
      | false =>
        rw [collapseAux_space_false hc]
        by_cases ha : acc = []
        · rw [ha, splitWsAux_cons_space_nil (c := ' ') (by decide),
            splitWsAux_cons_space_nil hc]
          exact ih true [] (fun _ => rfl)
        · rw [splitWsAux_cons_space (c := ' ') (by decide) ha,
            splitWsAux_cons_space hc ha, ih true [] (fun _ => rfl)]
    | false =>
      rw [collapseAux_nonspace hc, splitWsAux_cons_nonspace hc,
        splitWsAux_cons_nonspace hc]
      exact ih false (c :: acc) (fun h => Bool.noConfusion h)

/-- `normalize_spaces` does not change the whitespace-split token list. -/
theorem splitWs_normalize (s : String) :
    splitWs (normalize_spaces s).data = splitWs s.data := by
  show splitWs (pyStripL (collapseAux false s.data)) = _
  rw [splitWs_pyStrip]
  exact splitWsAux_collapse s.data false [] (fun h => Bool.noConfusion h)

/-- The token list of a `strip_org_suffix` result: the suffix-free
tokens of the input. -/
theorem strip_org_tokens (s : String) :
    splitWs (strip_org_suffix s).data =
      ((((splitWs s.data).map (fun l => (⟨l⟩ : String))).filter
        (fun p => !ORG_SUFFIX.contains p)).map String.data) := by
  show splitWs (pyStripL (joinSp _)) = _
  rw [splitWs_pyStrip]
  apply splitWs_joinSp
  intro w hw
  rcases List.mem_map.1 hw with ⟨p, hp, hpw⟩
  rcases List.mem_map.1 (List.mem_of_mem_filter hp) with ⟨t, ht, hpt⟩
  have hgood := splitWs_good t ht
  rw [← hpw, ← hpt]
  exact hgood

/-! ## Shape of the capitalized-sequence matches -/

theorem mem_take_takeWhile {p : Char → Bool} :
    ∀ (l : List Char) (n : Nat), n ≤ (l.takeWhile p).length →
      ∀ c ∈ l.take n, p c = true := by
  intro l
  induction l with
  | nil => intro n _ c hc; simp at hc
  | cons x xs ih =>
    intro n hn c hc
    cases n with
    | zero => simp at hc
    | succ m =>
      cases hx : p x with
      | false =>
        rw [List.takeWhile_cons, hx] at hn
        simp at hn
      | true =>
        rw [List.takeWhile_cons, hx] at hn
        simp only [if_true, List.length_cons] at hn
        rw [List.take_succ_cons] at hc
        rcases List.mem_cons.1 hc with hcx | hcx
        · rw [hcx]; exact hx
        · exact ih m (by omega) c hcx

theorem isUpper_wCls {c : Char} (h : c.isUpper = true) : wCls c = true := by
  unfold wCls Char.isAlphanum Char.isAlpha
  rw [h]
  rfl

theorem wOpts_mem {cs w r : List Char} (h : (w, r) ∈ wOpts cs) :
    w ≠ [] ∧ ∀ c ∈ w, wCls c = true := by
  cases cs with
  | nil => cases h
  | cons c cs' =>
    simp only [wOpts] at h
    by_cases hu : c.isUpper = true
    · rw [if_pos hu] at h
      rcases List.mem_map.1 h with ⟨k, hk, heq⟩
      have hk' : k < (cs'.takeWhile wCls).length := by
        have := List.mem_reverse.1 hk
        simpa using List.mem_range.1 this
      have hw : w = c :: cs'.take (k + 1) := by
        have := congrArg Prod.fst heq
        simpa using this.symm
      refine ⟨by rw [hw]; simp, ?_⟩
      intro d hd
      rw [hw] at hd
      rcases List.mem_cons.1 hd with hdc | hdc
      · rw [hdc]; exact isUpper_wCls hu
      · exact mem_take_takeWhile cs' (k + 1) (by omega) d hdc
    · rw [if_neg hu] at h
      cases h

theorem repOpts_mem {cs s r : List Char} (h : (s, r) ∈ repOpts cs) :
    ∃ sp w, s = sp :: w ∧ pySpace sp = true ∧ w ≠ [] ∧ ∀ c ∈ w, wCls c = true := by
  cases cs with
  | nil => cases h
  | cons c cs' =>
    simp only [repOpts] at h
    by_cases hsp : pySpace c = true
    · rw [if_pos hsp] at h
      rcases List.mem_map.1 h with ⟨p, hp, heq⟩
      have hs : s = c :: p.1 := by
        have := congrArg Prod.fst heq
        simpa using this.symm
      have hw := @wOpts_mem cs' p.1 p.2 hp
      exact ⟨c, p.1, hs, hsp, hw.1, hw.2⟩
    · rw [if_neg hsp] at h
      cases h

theorem wordGood {w : List Char} (h : ∀ c ∈ w, wCls c = true) :
    ∀ c ∈ w, pySpace c = false :=
  fun c hc => wCls_not_space (h c hc)

/-- Every group split produces a text of one, two or three
whitespace-separated words. -/
theorem groupOpts_tokens {cs g r : List Char} (h : (g, r) ∈ groupOpts cs) :
    1 ≤ (splitWs g).length ∧ (splitWs g).length ≤ 3 := by
  unfold groupOpts at h
  rcases List.mem_flatMap.1 h with ⟨p1, hp1, hin⟩
  have h1 := @wOpts_mem cs p1.1 p1.2 hp1
  rcases List.mem_append.1 hin with hin | hin
  · rcases List.mem_flatMap.1 hin with ⟨p2, hp2, hin2⟩
    rcases @repOpts_mem p1.2 p2.1 p2.2 hp2 with
      ⟨sp, w2, hs2, hsp2, hw2ne, hw2⟩
    rcases List.mem_append.1 hin2 with hin3 | hin3
    · rcases List.mem_map.1 hin3 with ⟨p3, hp3, heq⟩
      rcases @repOpts_mem p2.2 p3.1 p3.2 hp3 with
        ⟨sp', w3, hs3, hsp3, hw3ne, hw3⟩
      have hg : g = p1.1 ++ p2.1 ++ p3.1 := by
        have := congrArg Prod.fst heq
        simpa using this.symm
      rw [hg, hs2, hs3]
      have hassoc : p1.1 ++ (sp :: w2) ++ (sp' :: w3) =
          p1.1 ++ sp :: (w2 ++ sp' :: w3) := by
        rw [List.append_assoc]
        rfl
      rw [hassoc, splitWs_word_sp h1.1 (wordGood h1.2) hsp2,
        splitWs_word_sp hw2ne (wordGood hw2) hsp3,
        splitWs_word hw3ne (wordGood hw3)]
      simp
    · have heq := List.mem_singleton.1 hin3
      have hg : g = p1.1 ++ p2.1 := by
        have := congrArg Prod.fst heq
        simpa using this
      rw [hg, hs2, splitWs_word_sp h1.1 (wordGood h1.2) hsp2,
        splitWs_word hw2ne (wordGood hw2)]
      simp
  · have heq := List.mem_singleton.1 hin
    have hg : g = p1.1 := by
      have := congrArg Prod.fst heq
      simpa using this
    rw [hg, splitWs_word h1.1 (wordGood h1.2)]
    simp

/-- Every sequence the fallback scan emits is a group split of some
suffix of the title. -/
theorem nameScan_mem :
    ∀ (fuel : Nat) (prev : Option Char) (cs g : List Char),
      g ∈ nameScan fuel prev cs → ∃ cs' r, (g, r) ∈ groupOpts cs' := by
  intro fuel
  induction fuel with
  | zero => intro prev cs g h; cases h
  | succ fuel ih =>
    intro prev cs g h
    cases cs with
    | nil => cases h
    | cons c cs' =>
      unfold nameScan at h
      split at h
      · split at h
        · rename_i p hfind
          rcases List.mem_cons.1 h with hg | hg
          · rcases List.exists_of_findSome?_eq_some hfind with ⟨q, hq, hfq⟩
            have hpq : q = p := by
              by_cases hb : bAfter (lastCh q.1 ' ') q.2 = true
              · rw [if_pos hb] at hfq
                exact Option.some.inj hfq
              · rw [if_neg hb] at hfq
                cases hfq
            rw [hg]
            exact ⟨c :: cs', p.2, by rw [← hpq] at *; exact (by rwa [hpq] at hq)⟩
          · exact ih _ _ _ hg
        · exact ih _ _ _ h
      · exact ih _ _ _ h

theorem strong1_mem {t g : List Char} (h : strong1 t = some g) :
    ∃ r, (g, r) ∈ groupOpts t := by
  unfold strong1 at h
  rcases List.exists_of_findSome?_eq_some h with ⟨p, hp, hf⟩
  refine ⟨p.2, ?_⟩
  split at hf
  · split at hf
    · have : p.1 = g := Option.some.inj hf
      rw [← this]
      exact hp
    · cases hf
  · cases hf

theorem strong2_mem {t g : List Char} (h : strong2 t = some g) :
    ∃ r, (g, r) ∈ groupOpts t := by
  unfold strong2 at h
  rcases List.exists_of_findSome?_eq_some h with ⟨p, hp, hf⟩
  refine ⟨p.2, ?_⟩
  rcases List.exists_of_findSome?_eq_some hf with ⟨j, hj, hf2⟩
  rcases List.exists_of_findSome?_eq_some hf2 with ⟨v, hv, hf3⟩
  split at hf3
  · have : p.1 = g := Option.some.inj hf3
    rw [← this]
    exact hp
  · cases hf3

/-! ## The token filter excludes the deny-lists -/

theorem contains_false_not_mem {l : List String} {a : String}
    (h : l.contains a = false) : a ∉ l := by
  intro hmem
  unfold List.contains at h
  rw [List.elem_eq_true_of_mem hmem] at h
  cases h

theorem token_ok_not_mem {w : String} (hgood : ∀ c ∈ w.data, pySpace c = false)
    (h : token_ok w = true) :
    w ∉ GEO ∧ w ∉ NOISE ∧ pyLower w ∉ BAD_LOWER := by
  unfold token_ok at h
  rw [pyStrip_noop hgood, strEta] at h
  simp only [] at h
  split at h
  · cases h
  · split at h
    · cases h
    · split at h
      · cases h
      · split at h
        · cases h
        · split at h
          · cases h
          · split at h
            · cases h
            · rename_i hGN hB
              have hG : GEO.contains w = false := by
                cases hgeo : GEO.contains w
                · rfl
                · exfalso
                  apply hGN
                  rw [hgeo]
                  simp
              have hN : NOISE.contains w = false := by
                cases hnoi : NOISE.contains w
                · rfl
                · exfalso
                  apply hGN
                  rw [hnoi]
                  simp
              have hB' : BAD_LOWER.contains (pyLower w) = false := by
                cases hbad : BAD_LOWER.contains (pyLower w)
                · rfl
                · exact absurd hbad hB
              exact ⟨contains_false_not_mem hG, contains_false_not_mem hN,
                contains_false_not_mem hB'⟩

/-! ## The 1-to-3-token property of every extracted name -/

/-- The property claimed of every extracted name: one to three
whitespace-separated tokens, none of them in the geography list, the
noise list or (lowercased) the boilerplate-stopword list. -/
def goodName (n : String) : Prop :=
  1 ≤ (splitWs n.data).length ∧ (splitWs n.data).length ≤ 3 ∧
  ∀ w ∈ (splitWs n.data).map (fun l => (⟨l⟩ : String)),
    w ∉ GEO ∧ w ∉ NOISE ∧ pyLower w ∉ BAD_LOWER

theorem strip_org_data (s : String) :
    (strip_org_suffix s).data =
      pyStripL (joinSp ((((splitWs s.data).map (fun l => (⟨l⟩ : String))).filter
        (fun p => !ORG_SUFFIX.contains p)).map String.data)) := rfl

/-- A candidate that survived the non-emptiness and token-filter guards
of the extractor satisfies the claimed name property, provided it was
built by suffix-stripping a normalised group match. -/
theorem cand_conclusion {cs g r : List Char}
    (hg : (g, r) ∈ groupOpts cs) (cand : String)
    (hc : cand = strip_org_suffix (normalize_spaces ⟨g⟩))
    (hne : cand ≠ "")
    (hall : (((splitWs cand.data).map (fun l => (⟨l⟩ : String))).all token_ok) = true) :
    goodName cand := by
  have htoks : splitWs cand.data =
      ((((splitWs g).map (fun l => (⟨l⟩ : String))).filter
        (fun p => !ORG_SUFFIX.contains p)).map String.data) := by
    rw [hc, strip_org_tokens]
    have hn : splitWs (normalize_spaces ⟨g⟩).data = splitWs g := by
      have := splitWs_normalize ⟨g⟩
      simpa using this
    rw [hn]
  refine ⟨?_, ?_, ?_⟩
  · by_contra hlen
    have h0 : splitWs cand.data = [] := by
      cases hsw : splitWs cand.data
      · rfl
      · rw [hsw] at hlen; simp at hlen
    apply hne
    have hkept : ((((splitWs g).map (fun l => (⟨l⟩ : String))).filter
        (fun p => !ORG_SUFFIX.contains p)).map String.data) = [] := by
      rw [← htoks, h0]
    have hdata : cand.data = [] := by
      rw [hc, strip_org_data]
      have hn : splitWs (normalize_spaces ⟨g⟩).data = splitWs g := by
        have := splitWs_normalize ⟨g⟩
        simpa using this
      rw [hn, hkept]
      rfl
    cases cand
    simp at hdata
    rw [hdata]
  · rw [htoks]
    calc (((((splitWs g).map (fun l => (⟨l⟩ : String))).filter
          (fun p => !ORG_SUFFIX.contains p)).map String.data)).length
        = ((((splitWs g).map (fun l => (⟨l⟩ : String))).filter
          (fun p => !ORG_SUFFIX.contains p))).length := List.length_map _ _
      _ ≤ (((splitWs g).map (fun l => (⟨l⟩ : String)))).length :=
          List.length_filter_le _ _
      _ = (splitWs g).length := List.length_map _ _
      _ ≤ 3 := (groupOpts_tokens hg).2
  · intro w hw
    have hok : token_ok w = true := by
      have := List.all_eq_true.1 hall w hw
      simpa using this
    rcases List.mem_map.1 hw with ⟨tok, htok, hwt⟩
    have hgood := (splitWs_good tok htok).2
    refine token_ok_not_mem ?_ hok
    intro c hcw
    apply hgood
    rw [← hwt] at hcw
    exact hcw

theorem strongStep_props {cs g r : List Char} (hg : (g, r) ∈ groupOpts cs)
    {res : Option String} (h : strongStep g = some res) :
    res = none ∨ ∃ n, res = some n ∧ goodName n := by
  simp only [strongStep] at h
  split at h
  · rename_i hguard
    have hres : res = if GEO.contains (strip_org_suffix (normalize_spaces ⟨g⟩)) ||
        NOISE.contains (strip_org_suffix (normalize_spaces ⟨g⟩)) then none
        else some (strip_org_suffix (normalize_spaces ⟨g⟩)) :=
      (Option.some.inj h).symm
    rcases Bool.and_eq_true_iff.1 hguard with ⟨hne, hall⟩
    by_cases hgn : (GEO.contains (strip_org_suffix (normalize_spaces ⟨g⟩)) ||
        NOISE.contains (strip_org_suffix (normalize_spaces ⟨g⟩))) = true
    · left
      rw [hres, if_pos hgn]
    · right
      refine ⟨strip_org_suffix (normalize_spaces ⟨g⟩), ?_, ?_⟩
      · rw [hres, if_neg hgn]
      · exact cand_conclusion hg _ rfl (by simpa using hne) (by simpa using hall)
  · cases h

theorem fallbackName_props {t : List Char} {n : String}
    (h : fallbackName t = some n) : goodName n := by
  simp only [fallbackName] at h
  split at h
  · cases h
  · split at h
    · cases h
    · rename_i best rest hsort
      split at h
      · cases h
      · have hbn : best.2 = n := Option.some.inj h
        have hmem : best ∈ (((((fallbackSeqs t).map
            (fun s => strip_org_suffix (normalize_spaces s))).filter
            (· ≠ "")).take 20).filterMap (scoredCand t)) := by
          have hin : best ∈ (((((fallbackSeqs t).map
              (fun s => strip_org_suffix (normalize_spaces s))).filter
              (· ≠ "")).take 20).filterMap (scoredCand t)).insertionSort
              (fun a b => b.1 ≤ a.1) := by
            rw [hsort]
            exact List.mem_cons_self _ _
          exact (List.mem_insertionSort _).1 hin
        rcases List.mem_filterMap.1 hmem with ⟨s0, hs0, hsc⟩
        have hs0' := List.take_subset 20 _ hs0
        rcases List.mem_filter.1 hs0' with ⟨hs0'', hs0ne⟩
        rcases List.mem_map.1 hs0'' with ⟨s1, hs1, hmap⟩
        rcases List.mem_map.1 hs1 with ⟨g, hgscan, hg1⟩
        rcases nameScan_mem _ _ _ _ hgscan with ⟨cs', r, hgm⟩
        simp only [scoredCand] at hsc
        split at hsc
        · cases hsc
        · split at hsc
          · cases hsc
          · rename_i hparts hall
            have hb2 : best.2 = s0 := by
              have := Option.some.inj hsc
              rw [← this]
            rw [← hbn, hb2]
            refine cand_conclusion hgm s0 ?_ (by simpa using hs0ne) ?_
            · rw [← hmap, ← hg1]
            · cases hat : (((splitWs s0.data).map (fun l => (⟨l⟩ : String))).all token_ok) with
              | true => rfl
              | false =>
                exfalso
                apply hall
                rw [hat]
                rfl

theorem extractTail_props (t : List Char) :
    (match (match strong2 t with | some g => strongStep g | none => none) with
      | some r => r
      | none => fallbackName t) = none ∨
    ∃ n, (match (match strong2 t with | some g => strongStep g | none => none) with
      | some r => r
      | none => fallbackName t) = some n ∧ goodName n := by
  cases hs2 : strong2 t with
  | some g2 =>
    dsimp only
    cases hss2 : strongStep g2 with
    | some r2 =>
      dsimp only
      rcases strong2_mem hs2 with ⟨rg, hrg⟩
      rcases strongStep_props hrg hss2 with hnone | ⟨n, hn, hgood⟩
      · left; exact hnone
      · right; exact ⟨n, hn, hgood⟩
    | none =>
      dsimp only
      cases hf : fallbackName t with
      | none => left; rfl
      | some n => right; exact ⟨n, rfl, fallbackName_props hf⟩
  | none =>
    dsimp only
    cases hf : fallbackName t with
    | none => left; rfl
    | some n => right; exact ⟨n, rfl, fallbackName_props hf⟩

theorem extractFromNorm_props (t : List Char) :
    extractFromNorm t = none ∨
    ∃ n, extractFromNorm t = some n ∧ goodName n := by
  unfold extractFromNorm
  cases hs1 : strong1 t with
  | some g1 =>
    dsimp only
    cases hss1 : strongStep g1 with
    | some r1 =>
      dsimp only
      rcases strong1_mem hs1 with ⟨rg, hrg⟩
      rcases strongStep_props hrg hss1 with hnone | ⟨n, hn, hgood⟩
      · left; exact hnone
      · right; exact ⟨n, hn, hgood⟩
    | none =>
      dsimp only
      exact extractTail_props t
  | none =>
    dsimp only
    exact extractTail_props t

/-- Claim C1: for every title, `extract_company_name` returns either
`none` or a name of one to three whitespace-separated tokens, no token
of which lies in `GEO`, in `NOISE`, or — lowercased — in `BAD_LOWER`. -/
theorem claim_C1_extracted_name_tokens (title : String) :
    extract_company_name title = none ∨
    ∃ n, extract_company_name title = some n ∧
      1 ≤ (splitWs n.data).length ∧ (splitWs n.data).length ≤ 3 ∧
      ∀ w ∈ (splitWs n.data).map (fun l => (⟨l⟩ : String)),
        w ∉ GEO ∧ w ∉ NOISE ∧ pyLower w ∉ BAD_LOWER := by
  rcases extractFromNorm_props (normalize_spaces ⟨title.data.map
      (fun c => if c = '’' then '\x27' else c)⟩).data with hnone | ⟨n, hn, hgood⟩
  · left; exact hnone
  · right; exact ⟨n, hn, hgood⟩

/-- Witness for C1: the token property applied to a concrete extracted
name. -/
theorem claim_C1_witness :
    "Midjourney" ∉ GEO ∧ "Midjourney" ∉ NOISE ∧ pyLower "Midjourney" ∉ BAD_LOWER := by
  rcases claim_C1_extracted_name_tokens "Midjourney launches new tool" with
    hnone | ⟨n, hn, _, _, hall⟩
  · exact absurd hnone (by decide)
  · have hcalc : extract_company_name "Midjourney launches new tool" =
        some "Midjourney" := by decide
    rw [hn] at hcalc
    have hn' : n = "Midjourney" := Option.some.inj hcalc
    rw [hn'] at hall
    exact hall "Midjourney" (by decide)

/-! ## Structure of `DOMAIN_RE` matches

Definitions and lemmas for settling the idempotence claim about
`extract_domains`. -/

/-- Joining a domain list back into one text with spaces,
`" ".join(domains)`. -/
def joinDomains (ds : List String) : String :=
  ⟨joinSp (ds.map String.data)⟩

/-- The domains on which re-extraction is stable: non-empty, starting
with a letter or digit, containing a dot, and not starting with `www.`
(each of the three conditions fails on a concrete counterexample to the
unconditional idempotence claim). -/
def stableDomain (d : String) : Bool :=
  (match d.data with | c :: _ => c.isAlphanum | [] => false) &&
  d.data.contains '.' && !(d.data.take 4 == ['w', 'w', 'w', '.'])

/-- The shape of every raw `DOMAIN_RE` match: one or more labels over
`[a-zA-Z0-9-]`, each followed by a dot, then a suffix whose lowercasing
is one of the allow-listed TLD strings. -/
def IsDomMatch (m : List Char) : Prop :=
  ∃ (ls : List (List Char)) (a : List Char) (s : String),
    ls ≠ [] ∧ (∀ l ∈ ls, l ≠ [] ∧ ∀ c ∈ l, dCls c = true) ∧
    s ∈ TLD_ALTS ∧ a.map lowerCh = s.data ∧
    m = (ls.map (fun l => l ++ ['.'])).flatten ++ a

/-- A fully lowercased well-formed domain: lower-fixed labels and an
exact TLD suffix.  Such a text re-matches `DOMAIN_RE` in full. -/
def CleanDomain (d : List Char) : Prop :=
  ∃ (ls : List (List Char)) (s : String),
    ls ≠ [] ∧ (∀ l ∈ ls, l ≠ [] ∧ ∀ c ∈ l, dCls c = true ∧ lowerCh c = c) ∧
    s ∈ TLD_ALTS ∧
    d = (ls.map (fun l => l ++ ['.'])).flatten ++ s.data

/-! ### Character-level facts about lowercasing -/

theorem upper_toNat_bounds {c : Char} (h : c.isUpper = true) :
    65 ≤ c.toNat ∧ c.toNat ≤ 90 := by
  unfold Char.isUpper at h
  rcases Bool.and_eq_true_iff.1 h with ⟨h1, h2⟩
  exact ⟨UInt32.le_toNat_of_le (by norm_num) (of_decide_eq_true h1),
    UInt32.toNat_le_of_le (by norm_num) (of_decide_eq_true h2)⟩

theorem lowerCh_of_not_upper {c : Char} (h : c.isUpper = false) : lowerCh c = c := by
  unfold lowerCh
  rw [h]
  simp

theorem lowerCh_idem (c : Char) : lowerCh (lowerCh c) = lowerCh c := by
  cases hu : c.isUpper with
  | false => rw [lowerCh_of_not_upper hu]; exact lowerCh_of_not_upper hu
  | true =>
    obtain ⟨h1, h2⟩ := upper_toNat_bounds hu
    have hc : c = Char.ofNat c.toNat := (Char.ofNat_toNat c).symm
    set n := c.toNat with hn
    rw [hc]
    interval_cases n <;> decide

theorem lowerCh_dCls {c : Char} (h : dCls c = true) : dCls (lowerCh c) = true := by
  cases hu : c.isUpper with
  | false => rw [lowerCh_of_not_upper hu]; exact h
  | true =>
    obtain ⟨h1, h2⟩ := upper_toNat_bounds hu
    have hc : c = Char.ofNat c.toNat := (Char.ofNat_toNat c).symm
    set n := c.toNat with hn
    rw [hc]
    interval_cases n <;> decide

theorem map_fix {f : Char → Char} :
    ∀ {l : List Char}, (∀ c ∈ l, f c = c) → l.map f = l := by
  intro l
  induction l with
  | nil => intro _; rfl
  | cons c t ih =>
    intro h
    rw [List.map_cons, h c (List.mem_cons_self c t),
      ih (fun d hd => h d (List.mem_cons_of_mem c hd))]

/-- The allow-listed suffixes are non-empty lower-fixed alphabetic
strings. -/
theorem TLD_chars : ∀ s ∈ TLD_ALTS, s.data ≠ [] ∧
    ∀ c ∈ s.data, dCls c = true ∧ lowerCh c = c ∧ c.isAlpha = true := by
  decide

theorem TLD_last_word : ∀ s ∈ TLD_ALTS, isWordCh (lastCh s.data ' ') = true := by
  decide

/-! ### Every match of the scan has the label-suffix shape -/

theorem labelDot_spec {cs l rest : List Char} (h : labelDot cs = some (l, rest)) :
    ∃ lab, l = lab ++ ['.'] ∧ lab ≠ [] ∧ (∀ c ∈ lab, dCls c = true) ∧
      cs = lab ++ '.' :: rest := by
  simp only [labelDot] at h
  split at h
  · cases h
  · rename_i hlen
    split at h
    · rename_i rest' hdrop
      have hl : l = cs.takeWhile dCls ++ ['.'] ∧ rest' = rest := by
        have h1 := congrArg Prod.fst (Option.some.inj h)
        have h2 := congrArg Prod.snd (Option.some.inj h)
        exact ⟨h1.symm, h2⟩
      refine ⟨cs.takeWhile dCls, hl.1, ?_, ?_, ?_⟩
      · intro hempty
        rw [hempty] at hlen
        exact hlen rfl
      · intro c hc
        exact List.mem_takeWhile_imp hc
      · obtain ⟨tail, htail⟩ := List.takeWhile_prefix (l := cs) dCls
        have hdrop' : cs.drop (cs.takeWhile dCls).length = tail := by
          nth_rewrite 2 [← htail]
          exact List.drop_left _ _
        have hsplit : cs.takeWhile dCls ++ cs.drop (cs.takeWhile dCls).length = cs := by
          rw [hdrop']
          exact htail
        rw [← hl.2, ← hdrop]
        exact hsplit.symm
    · cases h

theorem labelChain_mem :
    ∀ (fuel : Nat) (cs pre rest : List Char),
      (pre, rest) ∈ labelChain fuel cs →
      ∃ ls : List (List Char), ls ≠ [] ∧
        (∀ l ∈ ls, l ≠ [] ∧ ∀ c ∈ l, dCls c = true) ∧
        pre = (ls.map (fun l => l ++ ['.'])).flatten := by
  intro fuel
  induction fuel with
  | zero => intro cs pre rest h; cases h
  | succ fuel ih =>
    intro cs pre rest h
    unfold labelChain at h
    split at h
    · cases h
    · rename_i p hdot
      rcases List.mem_append.1 h with hin | hin
      · rcases List.mem_map.1 hin with ⟨q, hq, heq⟩
        have hpre : pre = p.1 ++ q.1 := by
          have := congrArg Prod.fst heq
          simpa using this.symm
        rcases @labelDot_spec cs p.1 p.2 (by rw [← hdot]) with
          ⟨lab, hlab, hlabne, hlabcls, hcs⟩
        rcases ih p.2 q.1 q.2 hq with ⟨ls', hls'ne, hls'cls, hq1⟩
        refine ⟨lab :: ls', by simp, ?_, ?_⟩
        · intro l hl
          rcases List.mem_cons.1 hl with hl' | hl'
          · rw [hl']; exact ⟨hlabne, hlabcls⟩
          · exact hls'cls l hl'
        · rw [hpre, hq1, hlab]
          simp
      · have heq := List.mem_singleton.1 hin
        have hpre : pre = p.1 := by
          have := congrArg Prod.fst heq
          simpa using this
        rcases @labelDot_spec cs p.1 p.2 (by rw [← hdot]) with
          ⟨lab, hlab, hlabne, hlabcls, _⟩
        refine ⟨[lab], by simp, ?_, ?_⟩
        · intro l hl
          rw [List.mem_singleton.1 hl]
          exact ⟨hlabne, hlabcls⟩
        · rw [hpre, hlab]
          simp

theorem domainMatchAt_spec {prevW : Bool} {cs m rest : List Char}
    (h : domainMatchAt prevW cs = some (m, rest)) : IsDomMatch m := by
  unfold domainMatchAt at h
  split at h
  · cases h
  · split at h
    · rcases List.exists_of_findSome?_eq_some h with ⟨p, hp, hf⟩
      rcases List.exists_of_findSome?_eq_some hf with ⟨alt, halt, hf2⟩
      split at hf2
      · rename_i hcond
        rcases Bool.and_eq_true_iff.1 hcond with ⟨hbeq, _⟩
        have hm : m = p.1 ++ p.2.take alt.length := by
          have := congrArg Prod.fst (Option.some.inj hf2)
          simpa using this.symm
        rcases labelChain_mem _ _ _ _ hp with ⟨ls, hlsne, hlscls, hp1⟩
        refine ⟨ls, p.2.take alt.length, alt, hlsne, hlscls, halt, ?_, ?_⟩
        · exact beq_iff_eq.1 hbeq
        · rw [hm, hp1]
      · cases hf2
    · cases h

theorem domainScan_mem :
    ∀ (fuel : Nat) (prevW : Bool) (cs m : List Char),
      m ∈ domainScan fuel prevW cs → IsDomMatch m := by
  intro fuel
  induction fuel with
  | zero => intro prevW cs m h; cases h
  | succ fuel ih =>
    intro prevW cs m h
    cases cs with
    | nil => cases h
    | cons c cs' =>
      unfold domainScan at h
      split at h
      · rename_i p hmatch
        rcases List.mem_cons.1 h with hm | hm
        · rw [hm]
          exact @domainMatchAt_spec prevW (c :: cs') p.1 p.2 (by rw [← hmatch])
        · exact ih _ _ _ hm
      · exact ih _ _ _ h

theorem mem_pySortedStrSet {l : List String} {d : String} :
    d ∈ pySortedStrSet l ↔ d ∈ l := by
  unfold pySortedStrSet
  rw [List.mem_insertionSort, List.mem_dedup]

theorem extract_domains_mem {text : String} {d : String}
    (h : d ∈ extract_domains text) :
    ∃ m : List Char, IsDomMatch m ∧ d = domainClean ⟨m⟩ := by
  unfold extract_domains at h
  split at h
  · cases h
  · have h' := mem_pySortedStrSet.1 h
    rcases List.mem_map.1 h' with ⟨d0, hd0, hclean⟩
    unfold domainFindall at hd0
    rcases List.mem_map.1 hd0 with ⟨m, hm, hmk⟩
    exact ⟨m, domainScan_mem _ _ _ _ hm, by rw [← hclean, ← hmk]⟩

/-- When does a label-dot text start with `www.`: exactly when the first
label is `www` (the label cannot contain the dot). -/
theorem take4_www {l1 rest : List Char} (hcls : ∀ c ∈ l1, dCls c = true) :
    (l1 ++ '.' :: rest).take 4 = ['w', 'w', 'w', '.'] ↔ l1 = ['w', 'w', 'w'] := by
  match l1 with
  | [] =>
    simp
  | [a] =>
    constructor
    · intro h
      simp [List.take_succ_cons] at h
    · intro h
      cases h
  | [a, b] =>
    constructor
    · intro h
      simp [List.take_succ_cons] at h
    · intro h
      cases h
  | [a, b, c] =>
    constructor
    · intro h
      simp [List.take_succ_cons] at h
      rw [h.1, h.2.1, h.2.2]
    · intro h
      rw [List.cons.injEq] at h
      obtain ⟨rfl, h⟩ := h
      rw [List.cons.injEq] at h
      obtain ⟨rfl, h⟩ := h
      rw [List.cons.injEq] at h
      obtain ⟨rfl, _⟩ := h
      rfl
  | a :: b :: c :: e :: tl =>
    constructor
    · intro h
      simp [List.take_succ_cons] at h
      exfalso
      have he : e ∈ a :: b :: c :: e :: tl := by simp
      have := hcls e he
      rw [h.2.2.2] at this
      exact absurd this (by decide)
    · intro h
      rw [List.cons.injEq] at h
      obtain ⟨_, h⟩ := h
      rw [List.cons.injEq] at h
      obtain ⟨_, h⟩ := h
      rw [List.cons.injEq] at h
      obtain ⟨_, h⟩ := h
      cases h

/-- Lowercasing a raw match yields a clean domain text. -/
theorem lower_match {m : List Char} (hm : IsDomMatch m) :
    CleanDomain (m.map lowerCh) := by
  rcases hm with ⟨ls, a, s, hlsne, hlab, hs, hlowa, hdef⟩
  refine ⟨ls.map (List.map lowerCh), s, ?_, ?_, hs, ?_⟩
  · simpa using hlsne
  · intro l hl
    rcases List.mem_map.1 hl with ⟨l0, hl0, hmap⟩
    have h0 := hlab l0 hl0
    constructor
    · rw [← hmap]
      simpa using h0.1
    · intro c hc
      rw [← hmap] at hc
      rcases List.mem_map.1 hc with ⟨c0, hc0, hlc⟩
      rw [← hlc]
      exact ⟨lowerCh_dCls (h0.2 c0 hc0), lowerCh_idem c0⟩
  · rw [hdef, List.map_append, hlowa, List.map_flatten, List.map_map, List.map_map]
    congr 1
    congr 1
    apply List.map_congr_left
    intro l _
    show (l ++ ['.']).map lowerCh = (l.map lowerCh) ++ ['.']
    rw [List.map_append]
    rfl

/-- Stripping the leading `www.` from a clean domain that still contains
a dot yields a clean domain. -/
theorem clean_drop4 {d : List Char} (hd : CleanDomain d)
    (hwww : d.take 4 = ['w', 'w', 'w', '.'])
    (hdot : (d.drop 4).contains '.' = true) :
    CleanDomain (d.drop 4) := by
  rcases hd with ⟨ls, s, hlsne, hlab, hs, hdef⟩
  cases ls with
  | nil => exact absurd rfl hlsne
  | cons l1 tail =>
    have hshape : d = l1 ++ '.' :: ((tail.map (fun l => l ++ ['.'])).flatten ++ s.data) := by
      rw [hdef]
      simp
    have hcls : ∀ c ∈ l1, dCls c = true := by
      intro c hc
      exact ((hlab l1 (List.mem_cons_self l1 tail)).2 c hc).1
    have h4 : (l1 ++ '.' :: ((List.map (fun l => l ++ ['.']) tail).flatten ++
        s.data)).take 4 = ['w', 'w', 'w', '.'] := by
      rw [← hshape]
      exact hwww
    have hl1 : l1 = ['w', 'w', 'w'] := (take4_www hcls).1 h4
    have hdrop : d.drop 4 = (tail.map (fun l => l ++ ['.'])).flatten ++ s.data := by
      rw [hshape, hl1]
      rfl
    have htailne : tail ≠ [] := by
      intro htail
      rw [htail] at hdrop
      simp at hdrop
      rw [hdrop] at hdot
      have hmem : '.' ∈ s.data := by
        have := List.elem_iff.1 hdot
        exact this
      have := ((TLD_chars s hs).2 '.' hmem).2.2
      exact absurd this (by decide)
    rw [hdrop]
    exact ⟨tail, s, htailne, fun l hl => hlab l (List.mem_cons_of_mem l1 hl), hs, rfl⟩

/-- A domain in the extractor's output that satisfies the stability
conditions is a clean domain text starting with a letter or digit. -/
theorem stable_clean {text : String} {d : String} (hd : d ∈ extract_domains text)
    (hst : stableDomain d = true) :
    CleanDomain d.data ∧ ∃ c cs, d.data = c :: cs ∧ c.isAlphanum = true := by
  rcases extract_domains_mem hd with ⟨m, hm, hdc⟩
  have hlower := lower_match hm
  have hst' := hst
  unfold stableDomain at hst'
  rcases Bool.and_eq_true_iff.1 hst' with ⟨hhd, hwww⟩
  rcases Bool.and_eq_true_iff.1 hhd with ⟨hhead, hdot⟩
  have hdata : d.data =
      if ((m.map lowerCh).take 4 == ['w', 'w', 'w', '.']) = true
      then (m.map lowerCh).drop 4 else m.map lowerCh := by
    rw [hdc]
    simp only [domainClean, pyLower]
    split
    · rfl
    · rfl
  constructor
  · by_cases hc : ((m.map lowerCh).take 4 == ['w', 'w', 'w', '.']) = true
    · have hd4 : d.data = (m.map lowerCh).drop 4 := by rw [hdata, if_pos hc]
      rw [hd4]
      refine clean_drop4 hlower (beq_iff_eq.1 hc) ?_
      rw [← hd4]
      exact hdot
    · rw [hdata, if_neg hc]
      exact hlower
  · cases hcs : d.data with
    | nil =>
      rw [hcs] at hhead
      cases hhead
    | cons c cs =>
      refine ⟨c, cs, rfl, ?_⟩
      rw [hcs] at hhead
      exact hhead

/-! ### A clean domain matches itself in full -/

theorem alnum_word {c : Char} (h : c.isAlphanum = true) : isWordCh c = true := by
  unfold isWordCh
  rw [h]
  rfl

theorem alpha_word {c : Char} (h : c.isAlpha = true) : isWordCh c = true := by
  apply alnum_word
  unfold Char.isAlphanum
  rw [h]
  rfl

theorem takeWhile_all_append {p : Char → Bool} :
    ∀ {l r : List Char}, (∀ c ∈ l, p c = true) →
      (l ++ r).takeWhile p = l ++ r.takeWhile p := by
  intro l
  induction l with
  | nil => intro r _; rfl
  | cons c t ih =>
    intro r h
    show ((c :: (t ++ r)).takeWhile p) = _
    rw [List.takeWhile_cons, h c (List.mem_cons_self c t)]
    simp only [if_true]
    rw [ih (fun d hd => h d (List.mem_cons_of_mem c hd))]
    rfl

theorem labelDot_clean {l rest : List Char} (hne : l ≠ [])
    (hcls : ∀ c ∈ l, dCls c = true) :
    labelDot (l ++ '.' :: rest) = some (l ++ ['.'], rest) := by
  have ht : (l ++ '.' :: rest).takeWhile dCls = l := by
    rw [takeWhile_all_append hcls, List.takeWhile_cons]
    rw [show dCls '.' = false from by decide]
    simp
  simp only [labelDot, ht]
  rw [if_neg (by simpa using hne)]
  have hdrop : (l ++ '.' :: rest).drop l.length = '.' :: rest := List.drop_left _ _
  rw [hdrop]
  rfl

theorem labelDot_suffix_none {a sep : List Char} (ha : a ≠ [])
    (hcls : ∀ c ∈ a, dCls c = true)
    (hsep : sep = [] ∨ ∃ s', sep = ' ' :: s') :
    labelDot (a ++ sep) = none := by
  have ht : (a ++ sep).takeWhile dCls = a := by
    rw [takeWhile_all_append hcls]
    rcases hsep with h | ⟨s', h⟩
    · rw [h]
      simp
    · rw [h, List.takeWhile_cons]
      rw [show dCls ' ' = false from by decide]
      simp
  simp only [labelDot, ht]
  rw [if_neg (by simpa using ha)]
  have hdrop : (a ++ sep).drop a.length = sep := List.drop_left _ _
  rw [hdrop]
  rcases hsep with h | ⟨s', h⟩
  · rw [h]
  · rw [h]
    rfl

theorem labelChain_of_none {cs : List Char} (h : labelDot cs = none) :
    ∀ fuel, labelChain fuel cs = [] := by
  intro fuel
  cases fuel with
  | zero => rfl
  | succ f =>
    unfold labelChain
    rw [h]

theorem labelChain_cons_step {fuel : Nat} {cs l rest : List Char}
    (h : labelDot cs = some (l, rest)) :
    labelChain (fuel + 1) cs =
      ((labelChain fuel rest).map (fun q => (l ++ q.1, q.2))) ++ [(l, rest)] := by
  conv_lhs => unfold labelChain
  rw [h]

theorem labelChain_clean :
    ∀ (ls : List (List Char)) (tailPart : List Char) (fuel : Nat),
      ls ≠ [] → (∀ l ∈ ls, l ≠ [] ∧ ∀ c ∈ l, dCls c = true) →
      labelDot tailPart = none →
      ((ls.map (fun l => l ++ ['.'])).flatten ++ tailPart).length ≤ fuel →
      ∃ tail, labelChain fuel ((ls.map (fun l => l ++ ['.'])).flatten ++ tailPart) =
        ((ls.map (fun l => l ++ ['.'])).flatten, tailPart) :: tail := by
  intro ls
  induction ls with
  | nil => intro tailPart fuel hne _ _ _; exact absurd rfl hne
  | cons l1 ls' ih =>
    intro tailPart fuel _ hlab hdot hfuel
    have hl1 := hlab l1 (List.mem_cons_self l1 ls')
    have hshape : ((l1 :: ls').map (fun l => l ++ ['.'])).flatten ++ tailPart =
        l1 ++ '.' :: ((ls'.map (fun l => l ++ ['.'])).flatten ++ tailPart) := by
      simp
    cases fuel with
    | zero =>
      exfalso
      rw [hshape, List.length_append] at hfuel
      simp only [List.length_cons] at hfuel
      omega
    | succ f =>
      rw [hshape, labelChain_cons_step (labelDot_clean hl1.1 hl1.2)]
      cases ls' with
      | nil =>
        refine ⟨[], ?_⟩
        simp [labelChain_of_none hdot f]
      | cons l2 ls'' =>
        have hfuel' : ((((l2 :: ls'').map (fun l => l ++ ['.'])).flatten ++
            tailPart)).length ≤ f := by
          rw [hshape] at hfuel
          have hpos : 0 < l1.length := List.length_pos.2 hl1.1
          simp [List.length_append] at hfuel ⊢
          omega
        rcases ih tailPart f (by simp) (fun l hl => hlab l (List.mem_cons_of_mem l1 hl))
          hdot hfuel' with ⟨tail', htail'⟩
        rw [htail']
        refine ⟨(tail'.map (fun q => (l1 ++ ['.'] ++ q.1, q.2))) ++
          [(l1 ++ ['.'], ((l2 :: ls'').map (fun l => l ++ ['.'])).flatten ++ tailPart)], ?_⟩
        simp

theorem findSome?_const {α β : Type} {l : List α} {f : α → Option β} {b : β}
    (hall : ∀ a ∈ l, f a = none ∨ f a = some b)
    (hex : ∃ a ∈ l, f a = some b) :
    l.findSome? f = some b := by
  induction l with
  | nil => rcases hex with ⟨a, ha, _⟩; cases ha
  | cons x xs ih =>
    rw [List.findSome?_cons]
    cases hfx : f x with
    | some v =>
      rcases hall x (List.mem_cons_self x xs) with h | h
      · rw [hfx] at h; cases h
      · rw [hfx] at h
        exact h
    | none =>
      apply ih
      · exact fun a ha => hall a (List.mem_cons_of_mem x ha)
      · rcases hex with ⟨a, ha, hfa⟩
        rcases List.mem_cons.1 ha with rfl | ha'
        · rw [hfx] at hfa; cases hfa
        · exact ⟨a, ha', hfa⟩

theorem strLen (s : String) : s.length = s.data.length := rfl

/-- On the text `suffix ++ separator`, the TLD alternation returns the
full suffix: shorter allow-listed strings fail the word boundary, longer
ones fail the literal comparison. -/
theorem tld_findSome {pre : List Char} {s : String} {sep : List Char}
    (hs : s ∈ TLD_ALTS)
    (hsep : sep = [] ∨ ∃ s', sep = ' ' :: s') :
    TLD_ALTS.findSome? (fun alt =>
      if ((s.data ++ sep).take alt.length).map lowerCh == alt.data &&
          bAfter (lastCh alt.data ' ') ((s.data ++ sep).drop alt.length)
      then some (pre ++ (s.data ++ sep).take alt.length,
        (s.data ++ sep).drop alt.length)
      else none) = some (pre ++ s.data, sep) := by
  have hfix : s.data.map lowerCh = s.data :=
    map_fix (fun c hc => ((TLD_chars s hs).2 c hc).2.1)
  have hbsep : ∀ lt : Char, isWordCh lt = true → bAfter lt sep = true := by
    intro lt hlt
    rcases hsep with h | ⟨s', h⟩
    · rw [h]
      exact hlt
    · rw [h]
      show (isWordCh lt != isWordCh ' ') = true
      rw [hlt, show isWordCh ' ' = false from by decide]
      rfl
  apply findSome?_const
  · intro alt halt
    by_cases hcond : (((s.data ++ sep).take alt.length).map lowerCh == alt.data &&
        bAfter (lastCh alt.data ' ') ((s.data ++ sep).drop alt.length)) = true
    · right
      rw [if_pos hcond]
      rcases Bool.and_eq_true_iff.1 hcond with ⟨hbeq, hb⟩
      rcases Nat.lt_trichotomy alt.length s.data.length with hlt | heq | hgt
      · exfalso
        have hdrop : (s.data ++ sep).drop alt.length =
            s.data.drop alt.length ++ sep :=
          List.drop_append_of_le_length (Nat.le_of_lt hlt)
        have hget : s.data.drop alt.length =
            s.data[alt.length] :: s.data.drop (alt.length + 1) :=
          List.drop_eq_getElem_cons hlt
        rw [hdrop, hget, List.cons_append] at hb
        have hw1 : isWordCh (lastCh alt.data ' ') = true := TLD_last_word alt halt
        have hw2 : isWordCh s.data[alt.length] = true :=
          alpha_word ((TLD_chars s hs).2 _ (List.getElem_mem hlt)).2.2
        have hb' : (isWordCh (lastCh alt.data ' ') !=
            isWordCh s.data[alt.length]) = true := hb
        rw [hw1, hw2] at hb'
        exact absurd hb' (by decide)
      · have htake : (s.data ++ sep).take alt.length = s.data :=
          List.take_left' heq.symm
        have hdrop : (s.data ++ sep).drop alt.length = sep :=
          List.drop_left' heq.symm
        rw [htake, hdrop]
      · exfalso
        rcases hsep with h | ⟨s', h⟩
        · rw [h, List.append_nil] at hbeq
          have htake : s.data.take alt.length = s.data :=
            List.take_of_length_le (Nat.le_of_lt hgt)
          rw [htake, hfix] at hbeq
          have heq := beq_iff_eq.1 hbeq
          have hlencontra := congrArg List.length heq
          have he1 : alt.length = alt.data.length := rfl
          omega
        · rw [h] at hbeq
          have htake : (s.data ++ ' ' :: s').take alt.length =
              s.data ++ (' ' :: s').take (alt.length - s.data.length) :=
            by
              rw [List.take_append_eq_append_take]
              congr 1
              exact List.take_of_length_le (Nat.le_of_lt hgt)
          rw [htake] at hbeq
          have hpos : 1 ≤ alt.length - s.data.length := by omega
          have hmem : ' ' ∈ (s.data ++ (' ' :: s').take (alt.length - s.data.length)) := by
            apply List.mem_append_right
            cases hd : alt.length - s.data.length with
            | zero => omega
            | succ k =>
              rw [List.take_succ_cons]
              exact List.mem_cons_self _ _
          have hmem' : ' ' ∈ alt.data := by
            rw [← beq_iff_eq.1 hbeq]
            exact List.mem_map.2 ⟨' ', hmem, by decide⟩
          have := ((TLD_chars alt halt).2 ' ' hmem').2.2
          exact absurd this (by decide)
    · left
      rw [if_neg hcond]
  · refine ⟨s, hs, ?_⟩
    have htake : (s.data ++ sep).take s.length = s.data := List.take_left' rfl
    have hdrop : (s.data ++ sep).drop s.length = sep := List.drop_left' rfl
    rw [if_pos ?_]
    · rw [htake, hdrop]
    · rw [htake, hdrop, hfix]
      rw [beq_self_eq_true]
      rw [hbsep _ (TLD_last_word s hs)]
      rfl

/-- A clean domain starting with a letter or digit matches `DOMAIN_RE`
in full at a fresh (non-word) position, leaving the separator behind. -/
theorem domainMatchAt_clean {d sep : List Char} (hd : CleanDomain d)
    (hhead : ∃ c cs, d = c :: cs ∧ c.isAlphanum = true)
    (hsep : sep = [] ∨ ∃ s', sep = ' ' :: s') :
    domainMatchAt false (d ++ sep) = some (d, sep) := by
  rcases hd with ⟨ls, s, hlsne, hlab, hs, hdef⟩
  rcases hhead with ⟨c, cs0, hdc, hcal⟩
  have hlabcls : ∀ l ∈ ls, l ≠ [] ∧ ∀ ch ∈ l, dCls ch = true := by
    intro l hl
    exact ⟨(hlab l hl).1, fun ch hch => ((hlab l hl).2 ch hch).1⟩
  have hscls : s.data ≠ [] ∧ ∀ ch ∈ s.data, dCls ch = true := by
    refine ⟨(TLD_chars s hs).1, fun ch hch => ((TLD_chars s hs).2 ch hch).1⟩
  have hshape : d ++ sep =
      (ls.map (fun l => l ++ ['.'])).flatten ++ (s.data ++ sep) := by
    rw [hdef, List.append_assoc]
  have hcons : d ++ sep = c :: (cs0 ++ sep) := by
    rw [hdc]
    rfl
  have hword : isWordCh c = true := alnum_word hcal
  rcases labelChain_clean ls (s.data ++ sep) ((d ++ sep).length) hlsne hlabcls
      (labelDot_suffix_none hscls.1 hscls.2 hsep)
      (by rw [hshape]) with ⟨tail, htail⟩
  have hchain : labelChain (c :: (cs0 ++ sep)).length (c :: (cs0 ++ sep)) =
      ((ls.map (fun l => l ++ ['.'])).flatten, s.data ++ sep) :: tail := by
    have hchain0 := htail
    rw [← hshape] at hchain0
    rw [hcons] at hchain0
    exact hchain0
  rw [hcons]
  show (if (false != isWordCh c) = true then _ else none) = _
  rw [hword]
  simp only [bne_self_eq_false, Bool.false_bne, if_true]
  rw [hchain, List.findSome?_cons]
  have hres := @tld_findSome ((ls.map (fun l => l ++ ['.'])).flatten) s sep hs hsep
  rw [hres]
  rw [hdef]

/-- A space never starts a `DOMAIN_RE` match. -/
theorem domainMatchAt_space {prevW : Bool} {cs : List Char} :
    domainMatchAt prevW (' ' :: cs) = none := by
  have hdot : labelDot (' ' :: cs) = none := by
    simp only [labelDot, List.takeWhile_cons]
    rw [show dCls ' ' = false from by decide]
    simp
  show (if (prevW != isWordCh ' ') = true then _ else none) = none
  by_cases hb : (prevW != isWordCh ' ') = true
  · rw [if_pos hb, labelChain_of_none hdot]
    rfl
  · rw [if_neg hb]

/-! ### Rescanning the joined output of the extractor -/

theorem domainScan_nil (fuel : Nat) (prevW : Bool) :
    domainScan fuel prevW [] = [] := by
  cases fuel <;> rfl

theorem domainScan_cons_some {prevW : Bool} {c : Char} {cs : List Char}
    {p : List Char × List Char} (fuel : Nat)
    (h : domainMatchAt prevW (c :: cs) = some p) :
    domainScan (fuel + 1) prevW (c :: cs) =
      p.1 :: domainScan fuel (isWordCh (lastCh p.1 ' ')) p.2 := by
  conv_lhs => unfold domainScan
  rw [h]

theorem domainScan_cons_none {prevW : Bool} {c : Char} {cs : List Char}
    (fuel : Nat) (h : domainMatchAt prevW (c :: cs) = none) :
    domainScan (fuel + 1) prevW (c :: cs) = domainScan fuel (isWordCh c) cs := by
  conv_lhs => unfold domainScan
  rw [h]

theorem domainScan_join :
    ∀ (ds : List String) (fuel : Nat),
    (∀ d ∈ ds, CleanDomain d.data ∧ ∃ c cs, d.data = c :: cs ∧ c.isAlphanum = true) →
    (joinSp (ds.map String.data)).length < fuel →
    domainScan fuel false (joinSp (ds.map String.data)) = ds.map String.data := by
  intro ds
  induction ds with
  | nil =>
    intro fuel _ hf
    cases fuel with
    | zero => omega
    | succ f => rfl
  | cons d rest ih =>
    intro fuel hcl hf
    obtain ⟨hdclean, c, cs0, hdc, hcal⟩ := hcl d (List.mem_cons_self d rest)
    cases rest with
    | nil =>
      have hj : joinSp ([d].map String.data) = d.data := rfl
      rw [hj] at hf ⊢
      cases fuel with
      | zero => omega
      | succ f =>
        have hm := domainMatchAt_clean hdclean ⟨c, cs0, hdc, hcal⟩ (Or.inl rfl)
        rw [List.append_nil] at hm
        rw [hdc] at hm ⊢
        rw [domainScan_cons_some f hm]
        dsimp only
        rw [domainScan_nil]
        rw [← hdc]
        rfl
    | cons e rest2 =>
      have hj : joinSp ((d :: e :: rest2).map String.data) =
          d.data ++ ' ' :: joinSp ((e :: rest2).map String.data) := rfl
      rw [hj] at hf ⊢
      have hlen : d.data.length + 1 +
          (joinSp ((e :: rest2).map String.data)).length < fuel := by
        rw [List.length_append, List.length_cons] at hf
        omega
      have hd1 : 1 ≤ d.data.length := by
        rw [hdc]
        simp
      cases fuel with
      | zero => omega
      | succ f =>
      cases f with
      | zero => omega
      | succ f2 =>
      have hm := domainMatchAt_clean hdclean ⟨c, cs0, hdc, hcal⟩
        (Or.inr ⟨joinSp ((e :: rest2).map String.data), rfl⟩)
      have hcons : d.data ++ ' ' :: joinSp ((e :: rest2).map String.data) =
          c :: (cs0 ++ ' ' :: joinSp ((e :: rest2).map String.data)) := by
        rw [hdc]
        rfl
      rw [hcons] at hm ⊢
      rw [domainScan_cons_some (f2 + 1) hm]
      dsimp only
      rw [domainScan_cons_none f2 domainMatchAt_space]
      rw [show isWordCh ' ' = false from by decide]
      rw [ih f2 (fun x hx => hcl x (List.mem_cons_of_mem d hx)) (by omega)]
      rfl

theorem extract_domains_of_ne {text : String} (h : text ≠ "") :
    extract_domains text = pySortedStrSet ((domainFindall text).map domainClean) := by
  unfold extract_domains
  rw [if_neg h]

theorem domainFindall_join {ds : List String}
    (hcl : ∀ d ∈ ds, CleanDomain d.data ∧ ∃ c cs, d.data = c :: cs ∧ c.isAlphanum = true) :
    domainFindall (joinDomains ds) = ds := by
  unfold domainFindall joinDomains
  rw [show (⟨joinSp (ds.map String.data)⟩ : String).data =
      joinSp (ds.map String.data) from rfl]
  rw [domainScan_join ds _ hcl (by omega)]
  rw [List.map_map]
  have hpt : List.map ((fun l => (⟨l⟩ : String)) ∘ String.data) ds = List.map id ds :=
    List.map_congr_left (fun d _ => strEta d)
  rw [hpt, List.map_id]

theorem clean_noop {d : String} (hc : CleanDomain d.data)
    (hst : stableDomain d = true) : domainClean d = d := by
  have hfix : d.data.map lowerCh = d.data := by
    rcases hc with ⟨ls, s, hlsne, hlab, hs, hdef⟩
    apply map_fix
    intro ch hch
    rw [hdef] at hch
    rcases List.mem_append.1 hch with h | h
    · rcases List.mem_flatten.1 h with ⟨l2, hl2, hchl⟩
      rcases List.mem_map.1 hl2 with ⟨l, hl, hleq⟩
      rw [← hleq] at hchl
      rcases List.mem_append.1 hchl with h2 | h2
      · exact ((hlab l hl).2 ch h2).2
      · have hch' : ch = '.' := by simpa using h2
        rw [hch']
        decide
    · exact ((TLD_chars s hs).2 ch h).2.1
  have hlow : pyLower d = d := by
    unfold pyLower
    rw [hfix, strEta]
  unfold stableDomain at hst
  rcases Bool.and_eq_true_iff.1 hst with ⟨_, hwww⟩
  simp only [domainClean]
  rw [hlow]
  cases hxy : (d.data.take 4 == ['w', 'w', 'w', '.']) with
  | false => simp
  | true => rw [hxy] at hwww; exact absurd hwww (by decide)

theorem lexLe_cons {x y : Char} {xs ys : List Char} :
    lexLe (x :: xs) (y :: ys) = true ↔
      (x.toNat < y.toNat ∨ (x.toNat = y.toNat ∧ lexLe xs ys = true)) := by
  show (if x.toNat < y.toNat then true
      else if y.toNat < x.toNat then false else lexLe xs ys) = true ↔ _
  by_cases h1 : x.toNat < y.toNat
  · rw [if_pos h1]
    simp [h1]
  · rw [if_neg h1]
    by_cases h2 : y.toNat < x.toNat
    · rw [if_pos h2]
      constructor
      · intro hh
        exact absurd hh (by decide)
      · intro hh
        rcases hh with hh | ⟨hh, _⟩ <;> omega
    · rw [if_neg h2]
      constructor
      · intro hh
        exact Or.inr ⟨by omega, hh⟩
      · intro hh
        rcases hh with hh | ⟨_, hh⟩
        · omega
        · exact hh

theorem lexLe_total : ∀ a b : List Char, lexLe a b = true ∨ lexLe b a = true := by
  intro a
  induction a with
  | nil => intro b; exact Or.inl rfl
  | cons x xs ih =>
    intro b
    cases b with
    | nil => exact Or.inr rfl
    | cons y ys =>
      by_cases h1 : x.toNat < y.toNat
      · exact Or.inl (lexLe_cons.2 (Or.inl h1))
      · by_cases h2 : y.toNat < x.toNat
        · exact Or.inr (lexLe_cons.2 (Or.inl h2))
        · rcases ih ys with h | h
          · exact Or.inl (lexLe_cons.2 (Or.inr ⟨by omega, h⟩))
          · exact Or.inr (lexLe_cons.2 (Or.inr ⟨by omega, h⟩))

theorem lexLe_trans : ∀ a b c : List Char,
    lexLe a b = true → lexLe b c = true → lexLe a c = true := by
  intro a
  induction a with
  | nil => intro b c _ _; rfl
  | cons x xs ih =>
    intro b c hab hbc
    cases b with
    | nil => exact Bool.noConfusion hab
    | cons y ys =>
      cases c with
      | nil => exact Bool.noConfusion hbc
      | cons z zs =>
        rcases lexLe_cons.1 hab with h1 | ⟨h1, h1t⟩ <;>
          rcases lexLe_cons.1 hbc with h2 | ⟨h2, h2t⟩
        · exact lexLe_cons.2 (Or.inl (by omega))
        · exact lexLe_cons.2 (Or.inl (by omega))
        · exact lexLe_cons.2 (Or.inl (by omega))
        · exact lexLe_cons.2 (Or.inr ⟨by omega, ih ys zs h1t h2t⟩)

instance : IsTotal String (fun a b => lexLe a.data b.data = true) :=
  ⟨fun a b => lexLe_total a.data b.data⟩

instance : IsTrans String (fun a b => lexLe a.data b.data = true) :=
  ⟨fun a b c => lexLe_trans a.data b.data c.data⟩

theorem pySortedStrSet_idem (l : List String) :
    pySortedStrSet (pySortedStrSet l) = pySortedStrSet l := by
  unfold pySortedStrSet
  have hnd : (l.dedup.insertionSort (fun a b => lexLe a.data b.data = true)).Nodup :=
    (List.perm_insertionSort (fun a b => lexLe a.data b.data = true)
      l.dedup).nodup_iff.2 (List.nodup_dedup l)
  rw [List.dedup_eq_self.2 hnd]
  exact List.Sorted.insertionSort_eq
    (List.sorted_insertionSort (fun a b => lexLe a.data b.data = true) l.dedup)

theorem joinDomains_ne {d1 : String} {rest : List String} {c : Char} {cs : List Char}
    (hdc : d1.data = c :: cs) : joinDomains (d1 :: rest) ≠ "" := by
  intro hcontra
  have h2 : joinSp ((d1 :: rest).map String.data) = ([] : List Char) :=
    congrArg String.data hcontra
  cases rest with
  | nil =>
    rw [show joinSp ([d1].map String.data) = d1.data from rfl, hdc] at h2
    exact List.noConfusion h2
  | cons e r2 =>
    rw [show joinSp ((d1 :: e :: r2).map String.data) =
        d1.data ++ ' ' :: joinSp ((e :: r2).map String.data) from rfl, hdc] at h2
    exact List.noConfusion h2

/-- C4 counterexample: on the input text `www.io` the extractor returns
the dotless domain `io`, and running the extractor again on its own
output (joined with spaces, as any textual re-presentation of the list
would be) returns the empty list, so `extract_domains` is not
idempotent as claimed. -/
theorem claim_C4_counterexample :
    extract_domains "www.io" = ["io"] ∧
    extract_domains (joinDomains (extract_domains "www.io")) = [] ∧
    (["io"] : List String) ≠ [] := by
  refine ⟨by decide, by decide, by decide⟩

/-- C4 (amended): `extract_domains` is idempotent on every text whose
extracted domains are all stable — each output domain starts with a
letter or digit, contains a dot, and does not start with `www.`.
Re-extracting from the space-joined output then reproduces the output
exactly. -/
theorem claim_C4_amended (text : String)
    (hst : ∀ d ∈ extract_domains text, stableDomain d = true) :
    extract_domains (joinDomains (extract_domains text)) = extract_domains text := by
  by_cases he : extract_domains text = []
  · rw [he]
    decide
  · have hcl : ∀ d ∈ extract_domains text,
        CleanDomain d.data ∧ ∃ c cs, d.data = c :: cs ∧ c.isAlphanum = true :=
      fun d hd => stable_clean hd (hst d hd)
    obtain ⟨d1, rest, hds⟩ : ∃ d1 rest, extract_domains text = d1 :: rest := by
      cases hE : extract_domains text with
      | nil => exact absurd hE he
      | cons a b => exact ⟨a, b, rfl⟩
    obtain ⟨_, c, cs, hdc, _⟩ := hcl d1 (by rw [hds]; exact List.mem_cons_self d1 rest)
    have hne : joinDomains (extract_domains text) ≠ "" := by
      rw [hds]
      exact joinDomains_ne hdc
    have htext : text ≠ "" := by
      intro h
      rw [h] at he
      exact he (by decide)
    rw [extract_domains_of_ne hne]
    rw [domainFindall_join hcl]
    have hmap : (extract_domains text).map domainClean =
        (extract_domains text).map id :=
      List.map_congr_left (fun d hd => clean_noop (hcl d hd).1 (hst d hd))
    rw [hmap, List.map_id]
    rw [extract_domains_of_ne htext]
    exact pySortedStrSet_idem _

/-- Witness for the amended C4 statement: the text
`see acme.io and foo.com` yields two stable domains, and re-extracting
from their joined form reproduces the list. -/
theorem claim_C4_witness :
    (∀ d ∈ extract_domains "see acme.io and foo.com", stableDomain d = true) ∧
    extract_domains (joinDomains (extract_domains "see acme.io and foo.com")) =
      extract_domains "see acme.io and foo.com" :=
  ⟨by decide, claim_C4_amended "see acme.io and foo.com" (by decide)⟩
